import Mathlib

/-!
Verification of the uncompressed string storage scheme of
`src/storage/compression/string_uncompressed.cpp`.

Block memory is modelled as a byte-addressed function `Nat → Nat`.
Multi-byte loads and stores (`Load<uint32_t>`, `Store<uint32_t>`,
`Load<block_id_t>`, `memcpy`, `memmove`) are modelled little-endian, as on the
platforms the code targets.  Machine integers are modelled as `Nat`/`Int` with
explicit `% 2^32` / `% 2^64` wrapping where the source casts can wrap.
-/

namespace StringUncompressed

/-- A block's bytes: byte-addressed memory. -/
def Mem : Type := Nat → Nat

/-- A freshly allocated, zeroed buffer. -/
def memZero : Mem := fun _ => 0

/-- Store a single byte. -/
def writeByte (m : Mem) (p : Nat) (b : Nat) : Mem :=
  fun q => if q = p then b else m q

/-- `memcpy(m + p, bs, bs.length)`: store a sequence of bytes at `p`. -/
def writeBytes (m : Mem) (p : Nat) : List Nat → Mem
  | [] => m
  | b :: bs => writeBytes (writeByte m p b) (p + 1) bs

/-- Read `n` bytes starting at `p`. -/
def readBytes (m : Mem) (p : Nat) : Nat → List Nat
  | 0 => []
  | n + 1 => m p :: readBytes m (p + 1) n

/-- `Store<uint32_t>(n, m + p)`: little-endian 4-byte store. -/
def writeU32 (m : Mem) (p : Nat) (n : Nat) : Mem := fun q =>
  if q = p then n % 256
  else if q = p + 1 then n / 2 ^ 8 % 256
  else if q = p + 2 then n / 2 ^ 16 % 256
  else if q = p + 3 then n / 2 ^ 24 % 256
  else m q

/-- `Load<uint32_t>(m + p)`: little-endian 4-byte load. -/
def readU32 (m : Mem) (p : Nat) : Nat :=
  m p + 2 ^ 8 * m (p + 1) + 2 ^ 16 * m (p + 2) + 2 ^ 24 * m (p + 3)

/-- `Store<int32_t>`: the two's-complement bit pattern of `v`, stored as u32. -/
def writeI32 (m : Mem) (p : Nat) (v : Int) : Mem :=
  writeU32 m p (v.emod (2 ^ 32)).toNat

/-- `Load<int32_t>`: reads 4 bytes and reinterprets them as two's complement. -/
def readI32 (m : Mem) (p : Nat) : Int :=
  if readU32 m p % 2 ^ 32 < 2 ^ 31 then ((readU32 m p % 2 ^ 32 : Nat) : Int)
  else ((readU32 m p % 2 ^ 32 : Nat) : Int) - 2 ^ 32

/-- `Store<block_id_t>` (`block_id_t` = `int64_t`): little-endian 8-byte store
of the two's-complement bit pattern. -/
def writeI64 (m : Mem) (p : Nat) (v : Int) : Mem := fun q =>
  if q = p then (v.emod (2 ^ 64)).toNat % 256
  else if q = p + 1 then (v.emod (2 ^ 64)).toNat / 2 ^ 8 % 256
  else if q = p + 2 then (v.emod (2 ^ 64)).toNat / 2 ^ 16 % 256
  else if q = p + 3 then (v.emod (2 ^ 64)).toNat / 2 ^ 24 % 256
  else if q = p + 4 then (v.emod (2 ^ 64)).toNat / 2 ^ 32 % 256
  else if q = p + 5 then (v.emod (2 ^ 64)).toNat / 2 ^ 40 % 256
  else if q = p + 6 then (v.emod (2 ^ 64)).toNat / 2 ^ 48 % 256
  else if q = p + 7 then (v.emod (2 ^ 64)).toNat / 2 ^ 56 % 256
  else m q

/-- Little-endian 8-byte unsigned load. -/
def readU64 (m : Mem) (p : Nat) : Nat :=
  m p + 2 ^ 8 * m (p + 1) + 2 ^ 16 * m (p + 2) + 2 ^ 24 * m (p + 3) +
    2 ^ 32 * m (p + 4) + 2 ^ 40 * m (p + 5) + 2 ^ 48 * m (p + 6) +
    2 ^ 56 * m (p + 7)

/-- `Load<block_id_t>`: little-endian 8-byte load, two's complement. -/
def readI64 (m : Mem) (p : Nat) : Int :=
  if readU64 m p % 2 ^ 64 < 2 ^ 63 then ((readU64 m p % 2 ^ 64 : Nat) : Int)
  else ((readU64 m p % 2 ^ 64 : Nat) : Int) - 2 ^ 64

/-- `memmove(m + dst, m + src, len)` (C semantics: as if through a temporary
buffer, so the source bytes are those of the original memory). -/
def memmove (m : Mem) (dst src len : Nat) : Mem :=
  fun q => if dst ≤ q ∧ q < dst + len then m (src + (q - dst)) else m q

/-! ### Basic lemmas about the memory primitives -/

theorem readBytes_length (m : Mem) (p n : Nat) : (readBytes m p n).length = n := by
  induction n generalizing p with
  | zero => rfl
  | succ n ih => simp [readBytes, ih]

theorem readBytes_congr {m1 m2 : Mem} {p1 p2 : Nat} (n : Nat)
    (h : ∀ r, r < n → m1 (p1 + r) = m2 (p2 + r)) :
    readBytes m1 p1 n = readBytes m2 p2 n := by
  induction n generalizing p1 p2 with
  | zero => rfl
  | succ n ih =>
    have h0 : m1 p1 = m2 p2 := by simpa using h 0 (by omega)
    have hr : readBytes m1 (p1 + 1) n = readBytes m2 (p2 + 1) n :=
      ih (fun r hr => by
        have := h (r + 1) (by omega)
        simpa [Nat.add_assoc, Nat.add_comm 1 r] using this)
    simp only [readBytes, h0, hr]

theorem writeBytes_out {m : Mem} {p : Nat} {bs : List Nat} {q : Nat}
    (h : q < p ∨ p + bs.length ≤ q) : writeBytes m p bs q = m q := by
  induction bs generalizing m p with
  | nil => rfl
  | cons b bs ih =>
    simp only [writeBytes]
    rw [ih (by simp at h ⊢; omega)]
    simp only [writeByte]
    rw [if_neg (by simp at h; omega)]

theorem writeBytes_read_self (m : Mem) (p : Nat) (bs : List Nat) :
    readBytes (writeBytes m p bs) p bs.length = bs := by
  induction bs generalizing m p with
  | nil => rfl
  | cons b bs ih =>
    have h1 : writeBytes (writeByte m p b) (p + 1) bs p = b := by
      rw [writeBytes_out (by omega)]
      simp [writeByte]
    simp only [writeBytes, List.length_cons, readBytes, h1, ih]

theorem readU32_congr {m1 m2 : Mem} {p1 p2 : Nat}
    (h : ∀ r, r < 4 → m1 (p1 + r) = m2 (p2 + r)) :
    readU32 m1 p1 = readU32 m2 p2 := by
  have h0 := h 0 (by omega)
  have h1 := h 1 (by omega)
  have h2 := h 2 (by omega)
  have h3 := h 3 (by omega)
  simp only [Nat.add_zero] at h0
  simp only [readU32, h0, h1, h2, h3]

theorem readI32_congr {m1 m2 : Mem} {p1 p2 : Nat}
    (h : ∀ r, r < 4 → m1 (p1 + r) = m2 (p2 + r)) :
    readI32 m1 p1 = readI32 m2 p2 := by
  simp only [readI32, readU32_congr h]

theorem readU64_congr {m1 m2 : Mem} {p1 p2 : Nat}
    (h : ∀ r, r < 8 → m1 (p1 + r) = m2 (p2 + r)) :
    readU64 m1 p1 = readU64 m2 p2 := by
  have h0 := h 0 (by omega)
  have h1 := h 1 (by omega)
  have h2 := h 2 (by omega)
  have h3 := h 3 (by omega)
  have h4 := h 4 (by omega)
  have h5 := h 5 (by omega)
  have h6 := h 6 (by omega)
  have h7 := h 7 (by omega)
  simp only [Nat.add_zero] at h0
  simp only [readU64, h0, h1, h2, h3, h4, h5, h6, h7]

theorem readI64_congr {m1 m2 : Mem} {p1 p2 : Nat}
    (h : ∀ r, r < 8 → m1 (p1 + r) = m2 (p2 + r)) :
    readI64 m1 p1 = readI64 m2 p2 := by
  simp only [readI64, readU64_congr h]

theorem writeU32_out {m : Mem} {p n q : Nat} (h : q < p ∨ p + 4 ≤ q) :
    writeU32 m p n q = m q := by
  simp only [writeU32]
  split_ifs <;> first | rfl | omega

theorem writeI32_out {m : Mem} {p : Nat} {v : Int} {q : Nat} (h : q < p ∨ p + 4 ≤ q) :
    writeI32 m p v q = m q :=
  writeU32_out h

theorem writeI64_out {m : Mem} {p : Nat} {v : Int} {q : Nat} (h : q < p ∨ p + 8 ≤ q) :
    writeI64 m p v q = m q := by
  simp only [writeI64]
  split_ifs <;> first | rfl | omega

theorem memmove_out {m : Mem} {dst src len q : Nat} (h : q < dst ∨ dst + len ≤ q) :
    memmove m dst src len q = m q := by
  simp only [memmove]
  rw [if_neg (by omega)]

theorem memmove_in {m : Mem} {dst src len q : Nat} (h : dst ≤ q ∧ q < dst + len) :
    memmove m dst src len q = m (src + (q - dst)) := by
  simp only [memmove]
  rw [if_pos h]

theorem writeU32_eval (m : Mem) (p n : Nat) :
    writeU32 m p n p = n % 256 ∧ writeU32 m p n (p + 1) = n / 2 ^ 8 % 256 ∧
      writeU32 m p n (p + 2) = n / 2 ^ 16 % 256 ∧
      writeU32 m p n (p + 3) = n / 2 ^ 24 % 256 := by
  refine ⟨?_, ?_, ?_, ?_⟩ <;> simp [writeU32]

theorem readU32_writeU32 (m : Mem) (p n : Nat) :
    readU32 (writeU32 m p n) p = n % 2 ^ 32 := by
  obtain ⟨e0, e1, e2, e3⟩ := writeU32_eval m p n
  simp only [readU32, e0, e1, e2, e3]
  omega

theorem readI32_writeI32 (m : Mem) (p : Nat) (v : Int)
    (h : -(2 ^ 31) ≤ v ∧ v < 2 ^ 31) :
    readI32 (writeI32 m p v) p = v := by
  have h1 : 0 ≤ v.emod (2 ^ 32) := Int.emod_nonneg v (by norm_num)
  have h2 : v.emod (2 ^ 32) < 2 ^ 32 := Int.emod_lt_of_pos v (by norm_num)
  obtain ⟨k, hk⟩ : ∃ k, v = 2 ^ 32 * k + v.emod (2 ^ 32) :=
    ⟨v / 2 ^ 32, (Int.ediv_add_emod v (2 ^ 32)).symm⟩
  simp only [readI32, writeI32, readU32_writeU32]
  split <;> omega

theorem writeI64_eval (m : Mem) (p : Nat) (v : Int) :
    writeI64 m p v p = (v.emod (2 ^ 64)).toNat % 256 ∧
      writeI64 m p v (p + 1) = (v.emod (2 ^ 64)).toNat / 2 ^ 8 % 256 ∧
      writeI64 m p v (p + 2) = (v.emod (2 ^ 64)).toNat / 2 ^ 16 % 256 ∧
      writeI64 m p v (p + 3) = (v.emod (2 ^ 64)).toNat / 2 ^ 24 % 256 ∧
      writeI64 m p v (p + 4) = (v.emod (2 ^ 64)).toNat / 2 ^ 32 % 256 ∧
      writeI64 m p v (p + 5) = (v.emod (2 ^ 64)).toNat / 2 ^ 40 % 256 ∧
      writeI64 m p v (p + 6) = (v.emod (2 ^ 64)).toNat / 2 ^ 48 % 256 ∧
      writeI64 m p v (p + 7) = (v.emod (2 ^ 64)).toNat / 2 ^ 56 % 256 := by
  refine ⟨?_, ?_, ?_, ?_, ?_, ?_, ?_, ?_⟩ <;> simp [writeI64]

theorem readI64_writeI64 (m : Mem) (p : Nat) (v : Int)
    (h : -(2 ^ 63) ≤ v ∧ v < 2 ^ 63) :
    readI64 (writeI64 m p v) p = v := by
  have h1 : 0 ≤ v.emod (2 ^ 64) := Int.emod_nonneg v (by norm_num)
  have h2 : v.emod (2 ^ 64) < 2 ^ 64 := Int.emod_lt_of_pos v (by norm_num)
  obtain ⟨k, hk⟩ : ∃ k, v = 2 ^ 64 * k + v.emod (2 ^ 64) :=
    ⟨v / 2 ^ 64, (Int.ediv_add_emod v (2 ^ 64)).symm⟩
  obtain ⟨e0, e1, e2, e3, e4, e5, e6, e7⟩ := writeI64_eval m p v
  have hu : readU64 (writeI64 m p v) p = (v.emod (2 ^ 64)).toNat := by
    simp only [readU64, e0, e1, e2, e3, e4, e5, e6, e7]
    omega
  simp only [readI64, hu]
  split <;> omega

/-! ### Data model

Constants and segment/state structures.  `DICTIONARY_HEADER_SIZE`,
`BIG_STRING_MARKER_SIZE` and `MAXIMUM_BLOCK` are declared in headers outside
`src/`; their values follow the spec: the header is the 8-byte `{size, end}`
pair, a marker is the size of a block identifier (`int64_t`) plus a 32-bit
offset, and `MAXIMUM_BLOCK` is the reserved threshold below which block
identifiers denote durable (on-disk) blocks. -/

def DICTIONARY_HEADER_SIZE : Nat := 8

def BIG_STRING_MARKER_SIZE : Nat := 12

def MAXIMUM_BLOCK : Int := 2 ^ 62

/-- The `{size, end}` dictionary header (`StringDictionaryContainer`). -/
structure StringDictionaryContainer where
  size : Nat
  end_ : Nat
  deriving DecidableEq

/-- `UncompressedStringStorage::SetDictionary`: store `size` at byte 0 and
`end` at byte 4 of the block. -/
def setDictionary (m : Mem) (c : StringDictionaryContainer) : Mem :=
  writeU32 (writeU32 m 0 c.size) 4 c.end_

/-- `UncompressedStringStorage::GetDictionary`. -/
def getDictionary (m : Mem) : StringDictionaryContainer :=
  ⟨readU32 m 0, readU32 m 4⟩

/-- `UncompressedStringStorage::GetDictionaryEnd`: load only the `end` field. -/
def getDictionaryEnd (m : Mem) : Nat :=
  readU32 m 4

/-- One node of the in-memory overflow chain (`StringBlock`): an allocated
buffer with its size, current write offset and block identifier.  The source
keeps the buffer behind a `shared_ptr<BlockHandle>`; the bytes are inlined
here. -/
structure StringBlock where
  size : Nat
  offset : Nat
  blockId : Int
  mem : Mem

/-- `UncompressedStringSegmentState`: the in-memory overflow chain (head
first, i.e. most recently allocated first), the identifiers of durable
overflow blocks, and the buffer manager's next temporary block identifier
(temporary identifiers start at `MAXIMUM_BLOCK`; `Allocate` hands them out in
increasing order).  The source's `overflow_blocks` side map from block id to
`StringBlock` is realised by `findOverflowBlock` over the chain, into which
every allocated node is inserted. -/
structure UncompressedStringSegmentState where
  head : List StringBlock
  onDiskBlocks : List Int
  nextId : Int

/-- Lookup of `state.overflow_blocks.find(block)`. -/
def findOverflowBlock : List StringBlock → Int → Option StringBlock
  | [], _ => none
  | b :: bs, id => if b.blockId = id then some b else findOverflowBlock bs id

/-- The result `Vector`'s string memory, as far as this code touches it:
`StringVector::EmptyString` materialises into the vector's own string heap
(`ownStrings`); `StringVector::AddHandle` transfers ownership of a freshly
allocated buffer (`allocatedBuffers`) or registers a pin on an existing
overflow block (`pinnedHandles`). -/
structure ResultVec where
  ownStrings : List (List Nat)
  allocatedBuffers : List (List Nat)
  pinnedHandles : List Int

/-- `UncompressedStringStorage::WriteStringMemory`: append a length-prefixed
string to the in-memory overflow chain.  If there is no head buffer, or
`head->offset + total_length >= head->size`, a new buffer of size
`max(total_length, block_size)` becomes the new head (old head is its `next`).
Returns the new state, the identifier of the block written, and the in-block
byte offset of the 32-bit length field. -/
def writeStringMemory (blockSize : Nat) (st : UncompressedStringSegmentState)
    (s : List Nat) : UncompressedStringSegmentState × Int × Nat :=
  let totalLength := s.length + 4
  let st' :=
    match st.head with
    | [] =>
        let allocSize := max totalLength blockSize
        { st with head := [⟨allocSize, 0, st.nextId, memZero⟩], nextId := st.nextId + 1 }
    | hd :: tl =>
        if hd.size ≤ hd.offset + totalLength then
          let allocSize := max totalLength blockSize
          let newHead : List StringBlock := ⟨allocSize, 0, st.nextId, memZero⟩ :: hd :: tl
          { st with head := newHead, nextId := st.nextId + 1 }
        else st
  match st'.head with
  | [] => (st', 0, 0)
  | hd :: tl =>
      let mem' := writeBytes (writeU32 hd.mem hd.offset s.length) (hd.offset + 4) s
      ({ st' with head := ⟨hd.size, hd.offset + totalLength, hd.blockId, mem'⟩ :: tl },
        hd.blockId, hd.offset)

/-- `UncompressedStringStorage::ReadString`: a string of `len` bytes starting
at `target + offset`. -/
def readString (m : Mem) (offset len : Nat) : List Nat :=
  readBytes m offset len

/-- `UncompressedStringStorage::ReadStringWithLength`: load a 32-bit length at
`offset`, the string bytes follow it. -/
def readStringWithLength (m : Mem) (offset : Nat) : List Nat :=
  readBytes m (offset + 4) (readU32 m offset)

/-- The copy loop of `ReadOverflowString`'s durable path: copy `remaining`
bytes into the target, following the trailing next-block pointer (the last
`sizeof(block_id_t)` bytes of each block) whenever the current block is
exhausted, resetting the local offset to 0.  `blockSize - 8 - offset` is
computed in unsigned arithmetic in the source, so when `offset` exceeds
`blockSize - 8` it wraps far above `remaining`; the loop is structurally
recursive on a fuel argument (the source's `while` terminates for every chain
an overflow writer produces). -/
def overflowCopyLoop (disk : Int → Mem) (blockSize : Nat) :
    Nat → Mem → Nat → Nat → List Nat → List Nat
  | 0, _, _, _, acc => acc
  | fuel + 1, m, offset, remaining, acc =>
      if remaining = 0 then acc
      else
        let toWrite := if offset ≤ blockSize - 8 then
            min remaining (blockSize - 8 - offset) else remaining
        let acc' := acc ++ readBytes m offset toWrite
        let remaining' := remaining - toWrite
        let offset' := offset + toWrite
        if remaining' = 0 then acc'
        else
          let nextBlock := readI64 m offset'
          overflowCopyLoop disk blockSize fuel (disk nextBlock) 0 remaining' acc'

/-- `UncompressedStringStorage::ReadOverflowString`.  `disk` maps durable
block identifiers (below `MAXIMUM_BLOCK`) to their pinned contents.  Durable
path: read a 32-bit length at `offset`, choose the copy target —  a freshly
allocated buffer of `length` bytes whose ownership is handed to the result
vector when `length >= blockSize`, the vector's own string heap otherwise —
and run the chained copy loop.  In-memory path: look the block up in the
overflow map, register the pin on it with the result vector, and decode a
length-prefixed string in place. -/
def readOverflowString (disk : Int → Mem) (blockSize : Nat)
    (st : UncompressedStringSegmentState) (result : ResultVec) (block : Int)
    (offset : Nat) : List Nat × ResultVec :=
  if block < MAXIMUM_BLOCK then
    let m := disk block
    let length := readU32 m offset
    let value := overflowCopyLoop disk blockSize (length + 1) m (offset + 4) length []
    if blockSize ≤ length then
      (value, { result with allocatedBuffers := result.allocatedBuffers ++ [value] })
    else
      (value, { result with ownStrings := result.ownStrings ++ [value] })
  else
    match findOverflowBlock st.head block with
    | some entry =>
        (readStringWithLength entry.mem offset,
          { result with pinnedHandles := result.pinnedHandles ++ [block] })
    | none => ([], result)

/-- `UncompressedStringStorage::WriteStringMarker`: `memcpy` the block
identifier, then the 32-bit offset right after it. -/
def writeStringMarker (m : Mem) (p : Nat) (blockId : Int) (offset : Int) : Mem :=
  writeI32 (writeI64 m p blockId) (p + 8) offset

/-- `UncompressedStringStorage::ReadStringMarker`: read the block identifier,
then the 32-bit offset right after it. -/
def readStringMarker (m : Mem) (p : Nat) : Int × Int :=
  (readI64 m p, readI32 m (p + 8))

/-- Modelled from the spec: `FetchStringFromDict` is declared in the missing
header `string_uncompressed.hpp`.  Per spec §4.2: a negative offset entry
denotes an overflow marker stored at `dictionary.end - abs(entry)`, which is
decoded and resolved through the Overflow Store; a non-negative entry denotes
`stringLength` inline bytes at `dictionary.end - entry`. -/
def fetchStringFromDict (disk : Int → Mem) (blockSize : Nat)
    (st : UncompressedStringSegmentState) (result : ResultVec) (mem : Mem)
    (dictEnd : Nat) (dictOffset : Int) (stringLength : Nat) : List Nat × ResultVec :=
  if dictOffset < 0 then
    let marker := readStringMarker mem (dictEnd - dictOffset.natAbs)
    readOverflowString disk blockSize st result marker.1 marker.2.toNat
  else
    (readBytes mem (dictEnd - dictOffset.toNat) stringLength, result)

/-- The loop body of `StringScanPartial`: `string_length` is the unsigned
32-bit cast of `abs(current) - abs(previous)`; `previous` is carried from the
previous iteration.  The destination slots `result_offset + i` of the flat
result vector are returned as a list, in row order. -/
def scanLoop (disk : Int → Mem) (blockSize : Nat)
    (st : UncompressedStringSegmentState) (mem : Mem) (dictEnd : Nat) :
    Nat → Int → Nat → ResultVec → List (List Nat) × ResultVec
  | _, _, 0, result => ([], result)
  | idx, previous, count + 1, result =>
      let current := readI32 mem (DICTIONARY_HEADER_SIZE + 4 * idx)
      let stringLength := ((((current.natAbs : Int) - (previous.natAbs : Int)).emod
        (2 ^ 32)).toNat)
      let fetched := fetchStringFromDict disk blockSize st result mem dictEnd current
        stringLength
      let rest := scanLoop disk blockSize st mem dictEnd (idx + 1) current count fetched.2
      (fetched.1 :: rest.1, rest.2)

/-- `UncompressedStringStorage::StringScanPartial`: scan `scanCount` rows
starting at relative row `start`; `previous_offset` is `base_data[start-1]`
when `start > 0` and 0 otherwise. -/
def stringScanPartial (disk : Int → Mem) (blockSize : Nat)
    (st : UncompressedStringSegmentState) (mem : Mem) (start scanCount : Nat)
    (result : ResultVec) : List (List Nat) × ResultVec :=
  let dictEnd := getDictionaryEnd mem
  let previous : Int :=
    if 0 < start then readI32 mem (DICTIONARY_HEADER_SIZE + 4 * (start - 1)) else 0
  scanLoop disk blockSize st mem dictEnd start previous scanCount result

/-- `UncompressedStringStorage::StringScan` = `StringScanPartial` with result
offset 0. -/
def stringScan (disk : Int → Mem) (blockSize : Nat)
    (st : UncompressedStringSegmentState) (mem : Mem) (start scanCount : Nat)
    (result : ResultVec) : List (List Nat) × ResultVec :=
  stringScanPartial disk blockSize st mem start scanCount result

/-- `UncompressedStringStorage::Select`: each selected index is resolved
independently; `prev_offset` is `base_data[index-1]` for that index (0 when
the index is 0). -/
def select (disk : Int → Mem) (blockSize : Nat)
    (st : UncompressedStringSegmentState) (mem : Mem) (start : Nat) :
    List Nat → ResultVec → List (List Nat) × ResultVec
  | [], result => ([], result)
  | s :: rest, result =>
      let dictEnd := getDictionaryEnd mem
      let index := start + s
      let current := readI32 mem (DICTIONARY_HEADER_SIZE + 4 * index)
      let prev : Int :=
        if 0 < index then readI32 mem (DICTIONARY_HEADER_SIZE + 4 * (index - 1)) else 0
      let stringLength := (((current.natAbs : Int) - (prev.natAbs : Int)).emod
        (2 ^ 32)).toNat
      let fetched := fetchStringFromDict disk blockSize st result mem dictEnd current
        stringLength
      let others := select disk blockSize st mem start rest fetched.2
      (fetched.1 :: others.1, others.2)

/-- `UncompressedStringStorage::StringFetchRow`: fetch a single row.  When
`row_id == 0` the length is `abs(entry)` and `offset[-1]` is never read;
otherwise it is the checked 32-bit cast of `abs(entry) - abs(offset[row_id-1])`
(`NumericCast` requires the difference to be a valid `uint32`; the same
`2^32` wrap as the scan path's unsafe cast models the bit pattern). -/
def stringFetchRow (disk : Int → Mem) (blockSize : Nat)
    (st : UncompressedStringSegmentState) (mem : Mem) (rowId : Nat)
    (result : ResultVec) : List Nat × ResultVec :=
  let dictEnd := getDictionaryEnd mem
  let dictOffset := readI32 mem (DICTIONARY_HEADER_SIZE + 4 * rowId)
  let stringLength : Nat :=
    if rowId = 0 then dictOffset.natAbs
    else ((((dictOffset.natAbs : Int) -
      ((readI32 mem (DICTIONARY_HEADER_SIZE + 4 * (rowId - 1))).natAbs : Int)).emod
      (2 ^ 32)).toNat)
  fetchStringFromDict disk blockSize st result mem dictEnd dictOffset stringLength

/-- A column segment: its block bytes, current row count and segment size. -/
structure Segment where
  mem : Mem
  count : Nat
  segSize : Nat

/-- `SerializedStringSegmentState`: the serialized segment state is the list
of durable overflow block identifiers. -/
structure SerializedStringSegmentState where
  blocks : List Int
  deriving DecidableEq

/-- `UncompressedStringStorage::StringInitSegment` for a fresh block
(`block_id == INVALID_BLOCK`): initialise the dictionary header to
`{size: 0, end: SegmentSize}`; adopt the deserialized durable overflow block
list into the new state (empty when no state was persisted). -/
def stringInitSegment (segSize : Nat) (serialized : Option SerializedStringSegmentState) :
    Segment × UncompressedStringSegmentState :=
  ({ mem := setDictionary memZero ⟨0, segSize⟩, count := 0, segSize := segSize },
    { head := [],
      onDiskBlocks := match serialized with
        | none => []
        | some s => s.blocks,
      nextId := MAXIMUM_BLOCK })

/-- Modelled from the spec: the append path (`StringAppendBase`, declared in
the missing header `string_uncompressed.hpp`), one value at a time, with no
overflow writer configured (the in-memory overflow path).  Per spec §4.4: if
`len(v) ≥` the overflow threshold, write `v` to the Overflow Store, grow
`dictionary.size` by the marker size, write the marker at
`dictionary.end - dictionary.size` and record `-dictionary.size` as the
offset entry; otherwise grow `dictionary.size` by `len(v)`, copy the bytes to
`dictionary.end - dictionary.size` and record `+dictionary.size`. -/
def appendValue (blockSize threshold : Nat) (p : Segment × UncompressedStringSegmentState)
    (v : List Nat) : Segment × UncompressedStringSegmentState :=
  let sg := p.1
  let dict := getDictionary sg.mem
  if threshold ≤ v.length then
    let written := writeStringMemory blockSize p.2 v
    let newSize := dict.size + BIG_STRING_MARKER_SIZE
    let mem1 := writeStringMarker sg.mem (dict.end_ - newSize) written.2.1
      (written.2.2 : Int)
    let mem2 := writeI32 mem1 (DICTIONARY_HEADER_SIZE + 4 * sg.count) (-(newSize : Int))
    let mem3 := setDictionary mem2 ⟨newSize, dict.end_⟩
    ({ sg with mem := mem3, count := sg.count + 1 }, written.1)
  else
    let newSize := dict.size + v.length
    let mem1 := writeBytes sg.mem (dict.end_ - newSize) v
    let mem2 := writeI32 mem1 (DICTIONARY_HEADER_SIZE + 4 * sg.count) (newSize : Int)
    let mem3 := setDictionary mem2 ⟨newSize, dict.end_⟩
    ({ sg with mem := mem3, count := sg.count + 1 }, p.2)

/-- Append a batch of values in order. -/
def appendAll (blockSize threshold : Nat)
    (p : Segment × UncompressedStringSegmentState) (vs : List (List Nat)) :
    Segment × UncompressedStringSegmentState :=
  vs.foldl (appendValue blockSize threshold) p

/-- `UncompressedStringStorage::FinalizeAppend`.  `flushLimit` stands for
`CompressionInfo::GetCompactionFlushLimit()` (declared outside `src/`).  If
`total_size >= flushLimit` the layout is untouched and the unchanged segment
size is returned; otherwise the dictionary bytes are moved down to line up
with the offset array, `dict.end` shrinks by the saved amount, and the new
header is stored. -/
def finalizeAppend (flushLimit : Nat) (sg : Segment) : Segment × Nat :=
  let dict := getDictionary sg.mem
  let offsetSize := DICTIONARY_HEADER_SIZE + sg.count * 4
  let totalSize := offsetSize + dict.size
  if flushLimit ≤ totalSize then (sg, sg.segSize)
  else
    let moveAmount := sg.segSize - totalSize
    let mem1 := memmove sg.mem offsetSize (dict.end_ - dict.size) dict.size
    let mem2 := setDictionary mem1 ⟨dict.size, dict.end_ - moveAmount⟩
    ({ sg with mem := mem2 }, totalSize)

/-- `SerializedStringSegmentState::Serialize`: emit the list under the single
named field `overflow_blocks` (the serialization framework round-trips a
named list field; its payload is the list itself). -/
def serializeSegmentState (s : SerializedStringSegmentState) : List Int :=
  s.blocks

/-- `UncompressedStringStorage::SerializeState`: nothing is emitted when the
segment has no durable overflow blocks; otherwise the ordered identifier
list. -/
def serializeState (st : UncompressedStringSegmentState) :
    Option SerializedStringSegmentState :=
  if st.onDiskBlocks.isEmpty then none else some ⟨st.onDiskBlocks⟩

/-- `UncompressedStringStorage::DeserializeState`: read the
`overflow_blocks` field back. -/
def deserializeState (payload : List Int) : SerializedStringSegmentState :=
  ⟨payload⟩

/-- Modelled from the spec: the durable overflow chain layout produced by the
checkpoint-time overflow writer (`WriteOverflowStringsToDisk`, outside
`src/`), described by §4.3's durable read path: the payload bytes of a string
sit at `off` in block `b`; each block reserves its trailing
`sizeof(block_id_t)` bytes for the identifier of the next block of the chain,
where the remaining payload continues at offset 0.  Decidable so that
concrete chains can be checked by evaluation. -/
def chainedFrom (disk : Int → Mem) (blockSize : Nat) :
    Nat → Int → Nat → List Nat → Bool
  | 0, _, _, bytes => bytes.isEmpty
  | fuel + 1, b, off, bytes =>
      if bytes.length ≤ blockSize - 8 - off then
        decide (readBytes (disk b) off bytes.length = bytes)
      else
        decide (off ≤ blockSize - 8) &&
        decide (readBytes (disk b) off (blockSize - 8 - off) =
          bytes.take (blockSize - 8 - off)) &&
        chainedFrom disk blockSize fuel (readI64 (disk b) (blockSize - 8)) 0
          (bytes.drop (blockSize - 8 - off))

/-! ### Helper lemmas about the operations -/

/-- A length-prefixed string written by `Store<uint32_t>` + `memcpy` reads
back: the length field and the payload. -/
theorem stored_write (m : Mem) (o : Nat) (v : List Nat) (hlen : v.length < 2 ^ 32) :
    readU32 (writeBytes (writeU32 m o v.length) (o + 4) v) o = v.length ∧
      readBytes (writeBytes (writeU32 m o v.length) (o + 4) v) (o + 4) v.length = v := by
  constructor
  · have hcongr : readU32 (writeBytes (writeU32 m o v.length) (o + 4) v) o =
        readU32 (writeU32 m o v.length) o :=
      readU32_congr (fun r hr => writeBytes_out (by omega))
    rw [hcongr, readU32_writeU32, Nat.mod_eq_of_lt hlen]
  · have := writeBytes_read_self (writeU32 m o v.length) (o + 4) v
    exact this

theorem readU32_setDictionary_size (m : Mem) (c : StringDictionaryContainer)
    (h : c.size < 2 ^ 32) : readU32 (setDictionary m c) 0 = c.size := by
  have hcongr : readU32 (setDictionary m c) 0 = readU32 (writeU32 m 0 c.size) 0 := by
    unfold setDictionary
    exact readU32_congr (fun r hr => writeU32_out (by omega))
  rw [hcongr, readU32_writeU32, Nat.mod_eq_of_lt h]

theorem readU32_setDictionary_end (m : Mem) (c : StringDictionaryContainer)
    (h : c.end_ < 2 ^ 32) : readU32 (setDictionary m c) 4 = c.end_ := by
  unfold setDictionary
  rw [readU32_writeU32, Nat.mod_eq_of_lt h]

theorem setDictionary_out (m : Mem) (c : StringDictionaryContainer) {q : Nat}
    (h : 8 ≤ q) : setDictionary m c q = m q := by
  unfold setDictionary
  rw [writeU32_out (by omega), writeU32_out (by omega)]

theorem getDictionary_setDictionary (m : Mem) (c : StringDictionaryContainer)
    (h : c.size < 2 ^ 32 ∧ c.end_ < 2 ^ 32) : getDictionary (setDictionary m c) = c := by
  unfold getDictionary
  rw [readU32_setDictionary_size m c h.1, readU32_setDictionary_end m c h.2]

/-! ### C7: FinalizeAppend leaves a dense-enough block untouched -/

/-- C7: when the required size `HeaderSize + count*4 + dictionary.size` is
already at or above the compaction flush limit, `FinalizeAppend` performs no
layout change — the segment (block bytes and dictionary header) is returned
untouched — and the unchanged segment size is returned. -/
theorem finalizeAppend_dense_noop (flushLimit : Nat) (sg : Segment)
    (h : flushLimit ≤ DICTIONARY_HEADER_SIZE + sg.count * 4 + (getDictionary sg.mem).size) :
    finalizeAppend flushLimit sg = (sg, sg.segSize) := by
  unfold finalizeAppend
  rw [if_pos h]

/-- Witness for C7 at a concrete segment: 2 rows, dictionary size 6, segment
size 24, flush limit 20 ≤ 8 + 2*4 + 6. -/
theorem finalizeAppend_dense_noop_witness :
    finalizeAppend 20 ⟨setDictionary memZero ⟨6, 24⟩, 2, 24⟩ =
      (⟨setDictionary memZero ⟨6, 24⟩, 2, 24⟩, 24) :=
  finalizeAppend_dense_noop 20 ⟨setDictionary memZero ⟨6, 24⟩, 2, 24⟩ (by
    have : getDictionary (setDictionary memZero ⟨6, 24⟩) = ⟨6, 24⟩ :=
      getDictionary_setDictionary memZero ⟨6, 24⟩ (by norm_num)
    rw [this]
    norm_num [DICTIONARY_HEADER_SIZE])

/-! ### C9: serialization round-trips the durable overflow block list -/

/-- C9: serializing a segment state with no durable overflow blocks emits
nothing, and re-initializing a segment from the absent state yields an empty
durable-block list; with durable blocks present, serializing, writing the
named field, reading it back and adopting it in `StringInitSegment`
reproduces exactly the same identifier list, in order. -/
theorem serializeState_roundTrip (segSize : Nat) (st : UncompressedStringSegmentState) :
    (serializeState st = none ↔ st.onDiskBlocks = []) ∧
      (stringInitSegment segSize ((serializeState st).map
        (fun s => deserializeState (serializeSegmentState s)))).2.onDiskBlocks =
        st.onDiskBlocks := by
  by_cases he : st.onDiskBlocks = []
  · constructor
    · simp [serializeState, he]
    · simp [serializeState, he, stringInitSegment]
  · have hne : st.onDiskBlocks.isEmpty = false := by
      simp [List.isEmpty_iff, he]
    constructor
    · simp [serializeState, hne, he]
    · simp [serializeState, hne, stringInitSegment, deserializeState, serializeSegmentState]

/-! ### C10: overflow marker encoding round-trips -/

/-- C10: for every block identifier and 32-bit offset in range,
`ReadStringMarker` recovers exactly what `WriteStringMarker` stored: the
block identifier first, the offset immediately after it. -/
theorem readStringMarker_writeStringMarker (m : Mem) (p : Nat) (b o : Int)
    (hb : -(2 ^ 63) ≤ b ∧ b < 2 ^ 63) (ho : -(2 ^ 31) ≤ o ∧ o < 2 ^ 31) :
    readStringMarker (writeStringMarker m p b o) p = (b, o) := by
  unfold readStringMarker writeStringMarker
  refine Prod.ext ?_ ?_
  · show readI64 (writeI32 (writeI64 m p b) (p + 8) o) p = b
    have hcongr : readI64 (writeI32 (writeI64 m p b) (p + 8) o) p =
        readI64 (writeI64 m p b) p :=
      readI64_congr (fun r hr => writeI32_out (by omega))
    rw [hcongr, readI64_writeI64 m p b hb]
  · show readI32 (writeI32 (writeI64 m p b) (p + 8) o) (p + 8) = o
    rw [readI32_writeI32 _ _ _ ho]

/-- Witness for C10 at a concrete in-memory block id and offset. -/
theorem readStringMarker_writeStringMarker_witness :
    readStringMarker (writeStringMarker memZero 20 (2 ^ 62 + 7) 513) 20 =
      (2 ^ 62 + 7, 513) :=
  readStringMarker_writeStringMarker memZero 20 (2 ^ 62 + 7) 513
    (by norm_num) (by norm_num)

/-! ### C6: the in-memory overflow write path -/

/-- Counterexample to C6 as stated: the head buffer has room for
`len(value) + 4` bytes (`offset + len + 4 ≤ size`, here `0 + 4 + 4 ≤ 8`),
yet `WriteStringMemory` does **not** append to it — the source allocates a
new block whenever `offset + total_length >= size`, so an exact fit already
triggers allocation: the returned block identifier is the freshly allocated
one, not the head's. -/
theorem writeStringMemory_exact_fit_allocates :
    (0 + ([1, 2, 3, 4] : List Nat).length + 4 ≤ 8) ∧
      (writeStringMemory 8
          ⟨[⟨8, 0, MAXIMUM_BLOCK, memZero⟩], [], MAXIMUM_BLOCK + 1⟩
          [1, 2, 3, 4]).2.1 ≠ MAXIMUM_BLOCK := by
  constructor
  · decide
  · show (MAXIMUM_BLOCK + 1 : Int) ≠ MAXIMUM_BLOCK
    decide

/-- C6 (amended): the head is appended to only when it has **strictly** more
space than `len(value) + 4` past its write offset
(`offset + total_length < size`); otherwise — including an exact fit — a new
buffer of size `max(len(value)+4, block_size)` is allocated and linked as the
new head with the old head as its next.  In each case the returned pair is
the identifier of the block actually written and the in-block offset of the
32-bit length field, and the written head's offset advances by
`len(value) + 4`. -/
theorem writeStringMemory_spec_amended (blockSize : Nat)
    (st : UncompressedStringSegmentState) (v : List Nat) (hlen : v.length < 2 ^ 32) :
    (∀ hd tl, st.head = hd :: tl → hd.offset + (v.length + 4) < hd.size →
      (writeStringMemory blockSize st v).2.1 = hd.blockId ∧
      (writeStringMemory blockSize st v).2.2 = hd.offset ∧
      (writeStringMemory blockSize st v).1.nextId = st.nextId ∧
      ∃ hd', (writeStringMemory blockSize st v).1.head = hd' :: tl ∧
        hd'.blockId = hd.blockId ∧ hd'.size = hd.size ∧
        hd'.offset = hd.offset + (v.length + 4) ∧
        readU32 hd'.mem hd.offset = v.length ∧
        readBytes hd'.mem (hd.offset + 4) v.length = v) ∧
    (∀ hd tl, st.head = hd :: tl → hd.size ≤ hd.offset + (v.length + 4) →
      (writeStringMemory blockSize st v).2.1 = st.nextId ∧
      (writeStringMemory blockSize st v).2.2 = 0 ∧
      (writeStringMemory blockSize st v).1.nextId = st.nextId + 1 ∧
      ∃ hd', (writeStringMemory blockSize st v).1.head = hd' :: hd :: tl ∧
        hd'.blockId = st.nextId ∧ hd'.size = max (v.length + 4) blockSize ∧
        hd'.offset = v.length + 4 ∧
        readU32 hd'.mem 0 = v.length ∧
        readBytes hd'.mem 4 v.length = v) ∧
    (st.head = [] →
      (writeStringMemory blockSize st v).2.1 = st.nextId ∧
      (writeStringMemory blockSize st v).2.2 = 0 ∧
      (writeStringMemory blockSize st v).1.nextId = st.nextId + 1 ∧
      ∃ hd', (writeStringMemory blockSize st v).1.head = [hd'] ∧
        hd'.blockId = st.nextId ∧ hd'.size = max (v.length + 4) blockSize ∧
        hd'.offset = v.length + 4 ∧
        readU32 hd'.mem 0 = v.length ∧
        readBytes hd'.mem 4 v.length = v) := by
  obtain ⟨hread, hbytes⟩ := stored_write memZero 0 v hlen
  refine ⟨?_, ?_, ?_⟩
  · intro hd tl hhead hfit
    have hcond : ¬ hd.size ≤ hd.offset + (v.length + 4) := by omega
    obtain ⟨hr, hb⟩ := stored_write hd.mem hd.offset v hlen
    simp only [writeStringMemory, hhead, if_neg hcond]
    exact ⟨by simp, by simp, by simp,
      ⟨_, rfl, by simp, by simp, by simp, by simpa using hr, by simpa using hb⟩⟩
  · intro hd tl hhead hfull
    have hcond : hd.size ≤ hd.offset + (v.length + 4) := hfull
    simp only [writeStringMemory, hhead, if_pos hcond]
    exact ⟨by simp, by simp, by simp,
      ⟨_, rfl, by simp, by simp, by simp, by simpa using hread, by simpa using hbytes⟩⟩
  · intro hhead
    simp only [writeStringMemory, hhead]
    exact ⟨by simp, by simp, by simp,
      ⟨_, rfl, by simp, by simp, by simp, by simpa using hread, by simpa using hbytes⟩⟩

/-- Witness for the amended C6, exercising both the strict-fit branch and the
allocation branch at concrete inputs. -/
theorem writeStringMemory_spec_amended_witness :
    ((writeStringMemory 16
        ⟨[⟨16, 0, MAXIMUM_BLOCK, memZero⟩], [], MAXIMUM_BLOCK + 1⟩ [9]).2.1 =
      MAXIMUM_BLOCK) ∧
    ((writeStringMemory 8
        ⟨[⟨8, 0, MAXIMUM_BLOCK, memZero⟩], [], MAXIMUM_BLOCK + 1⟩
        [1, 2, 3, 4]).2.1 = MAXIMUM_BLOCK + 1) := by
  constructor
  · have h := (writeStringMemory_spec_amended 16
      ⟨[⟨16, 0, MAXIMUM_BLOCK, memZero⟩], [], MAXIMUM_BLOCK + 1⟩ [9] (by norm_num)).1
      ⟨16, 0, MAXIMUM_BLOCK, memZero⟩ [] rfl (by norm_num)
    exact h.1
  · have h := (writeStringMemory_spec_amended 8
      ⟨[⟨8, 0, MAXIMUM_BLOCK, memZero⟩], [], MAXIMUM_BLOCK + 1⟩ [1, 2, 3, 4]
      (by norm_num)).2.1
      ⟨8, 0, MAXIMUM_BLOCK, memZero⟩ [] rfl (by norm_num)
    exact h.1

/-! ### The durable overflow read path -/

/-- The copy loop of `ReadOverflowString` recovers exactly the bytes laid out
by a durable overflow chain (`chainedFrom`), appending them to the
accumulator. -/
theorem overflowCopyLoop_chained (disk : Int → Mem) (blockSize : Nat) :
    ∀ (fuel : Nat) (b : Int) (off : Nat) (bytes acc : List Nat),
    chainedFrom disk blockSize fuel b off bytes = true →
    overflowCopyLoop disk blockSize fuel (disk b) off bytes.length acc = acc ++ bytes := by
  intro fuel
  induction fuel with
  | zero =>
    intro b off bytes acc hch
    simp only [chainedFrom, List.isEmpty_iff] at hch
    subst hch
    simp [overflowCopyLoop]
  | succ fuel ih =>
    intro b off bytes acc hch
    simp only [chainedFrom] at hch
    by_cases hle : bytes.length ≤ blockSize - 8 - off
    · rw [if_pos hle] at hch
      have hread : readBytes (disk b) off bytes.length = bytes := by
        simpa using hch
      by_cases hzero : bytes.length = 0
      · have hnil : bytes = [] := List.length_eq_zero.mp hzero
        subst hnil
        simp [overflowCopyLoop]
      · simp only [overflowCopyLoop, if_neg hzero]
        have hoff : off ≤ blockSize - 8 := by omega
        rw [if_pos hoff]
        have hmin : min bytes.length (blockSize - 8 - off) = bytes.length :=
          Nat.min_eq_left hle
        rw [hmin, hread]
        simp
    · rw [if_neg hle] at hch
      simp only [Bool.and_eq_true, decide_eq_true_eq] at hch
      obtain ⟨⟨hoff, hpre⟩, hrec⟩ := hch
      have hcap : blockSize - 8 - off < bytes.length := by omega
      have hzero : ¬ bytes.length = 0 := by omega
      simp only [overflowCopyLoop, if_neg hzero]
      rw [if_pos hoff]
      have hmin : min bytes.length (blockSize - 8 - off) = blockSize - 8 - off :=
        Nat.min_eq_right (by omega)
      rw [hmin, hpre]
      have hrem : ¬ bytes.length - (blockSize - 8 - off) = 0 := by omega
      rw [if_neg hrem]
      have hpos : off + (blockSize - 8 - off) = blockSize - 8 := by omega
      rw [hpos]
      have hdroplen : (bytes.drop (blockSize - 8 - off)).length =
          bytes.length - (blockSize - 8 - off) := List.length_drop _ _
      have := ih (readI64 (disk b) (blockSize - 8)) 0
        (bytes.drop (blockSize - 8 - off))
        (acc ++ bytes.take (blockSize - 8 - off)) hrec
      rw [hdroplen] at this
      rw [this, List.append_assoc, List.take_append_drop]

/-! ### C3: allocation choice on the durable read path -/

/-- C3: on the durable read path, for a chain holding string `w` with its
32-bit length stored at `offset`, `ReadOverflowString` returns `w`; it
materialises `w` into a freshly allocated buffer of the full string length
whose ownership is handed to the result vector exactly when
`length ≥ blockSize`, and for any smaller length it writes `w` directly into
the result vector's own string storage, leaving the allocated-buffer list
untouched. -/
theorem readOverflowString_alloc_iff (disk : Int → Mem) (blockSize : Nat)
    (st : UncompressedStringSegmentState) (r : ResultVec) (b : Int) (off : Nat)
    (w : List Nat) (hdur : b < MAXIMUM_BLOCK)
    (hlen : readU32 (disk b) off = w.length)
    (hchain : chainedFrom disk blockSize (w.length + 1) b (off + 4) w = true) :
    (readOverflowString disk blockSize st r b off).1 = w ∧
      (blockSize ≤ w.length →
        (readOverflowString disk blockSize st r b off).2 =
          { r with allocatedBuffers := r.allocatedBuffers ++ [w] }) ∧
      (w.length < blockSize →
        (readOverflowString disk blockSize st r b off).2 =
          { r with ownStrings := r.ownStrings ++ [w] }) := by
  have hval : overflowCopyLoop disk blockSize (w.length + 1) (disk b) (off + 4)
      w.length [] = w :=
    overflowCopyLoop_chained disk blockSize (w.length + 1) b (off + 4) w [] hchain
  simp only [readOverflowString, if_pos hdur, hlen, hval]
  refine ⟨?_, ?_, ?_⟩
  · split <;> rfl
  · intro hge
    rw [if_pos hge]
  · intro hlt
    rw [if_neg (by omega)]

/-- A concrete single-block durable chain: length 3 at offset 0 of block 0,
payload `[7, 8, 9]`. -/
def diskSmall : Int → Mem :=
  fun b => if b = 0 then writeBytes (writeU32 memZero 0 3) 4 [7, 8, 9] else memZero

/-- A concrete three-block durable chain for a 16-byte block size: length 16
at offset 0 of block 0, payload `[1..16]` split 4/8/4 across blocks 0, 1, 2
linked through trailing next-block pointers. -/
def diskBig : Int → Mem :=
  fun b =>
    if b = 0 then writeI64 (writeBytes (writeU32 memZero 0 16) 4 [1, 2, 3, 4]) 8 1
    else if b = 1 then writeI64 (writeBytes memZero 0 [5, 6, 7, 8, 9, 10, 11, 12]) 8 2
    else if b = 2 then writeBytes memZero 0 [13, 14, 15, 16]
    else memZero

/-- Witness for C3: the small string goes to the vector's own storage, the
16-byte string (at block size 16) is materialised into a freshly allocated
buffer handed to the vector. -/
theorem readOverflowString_alloc_iff_witness :
    ((readOverflowString diskSmall 32 ⟨[], [], MAXIMUM_BLOCK⟩ ⟨[], [], []⟩ 0 0).2 =
      ⟨[[7, 8, 9]], [], []⟩) ∧
    ((readOverflowString diskBig 16 ⟨[], [], MAXIMUM_BLOCK⟩ ⟨[], [], []⟩ 0 0).2 =
      ⟨[], [[1, 2, 3, 4, 5, 6, 7, 8, 9, 10, 11, 12, 13, 14, 15, 16]], []⟩) := by
  constructor
  · exact ((readOverflowString_alloc_iff diskSmall 32 ⟨[], [], MAXIMUM_BLOCK⟩ ⟨[], [], []⟩
      0 0 [7, 8, 9] (by decide) (by decide) (by decide)).2.2 (by decide))
  · exact ((readOverflowString_alloc_iff diskBig 16 ⟨[], [], MAXIMUM_BLOCK⟩ ⟨[], [], []⟩
      0 0 [1, 2, 3, 4, 5, 6, 7, 8, 9, 10, 11, 12, 13, 14, 15, 16]
      (by decide) (by decide) (by decide)).2.1 (by decide))

/-! ### Scan / Select / FetchRow agreement -/

theorem readI32_range (m : Mem) (p : Nat) :
    -(2 ^ 31) ≤ readI32 m p ∧ readI32 m p < 2 ^ 31 := by
  unfold readI32
  have h : readU32 m p % 2 ^ 32 < 2 ^ 32 := Nat.mod_lt _ (by norm_num)
  split <;> omega

/-- The string value produced for one row by the scan formula: entry
`offset[idx]`, length = unsigned cast of `abs(offset[idx]) - abs(prev)`. -/
def scanRowValue (disk : Int → Mem) (blockSize : Nat)
    (st : UncompressedStringSegmentState) (mem : Mem) (dictEnd : Nat)
    (prev : Int) (idx : Nat) : List Nat :=
  (fetchStringFromDict disk blockSize st ⟨[], [], []⟩ mem dictEnd
    (readI32 mem (DICTIONARY_HEADER_SIZE + 4 * idx))
    ((((readI32 mem (DICTIONARY_HEADER_SIZE + 4 * idx)).natAbs : Int) -
      (prev.natAbs : Int)).emod (2 ^ 32)).toNat).1

/-- The returned string of `ReadOverflowString` does not depend on the state
of the result vector. -/
theorem readOverflowString_fst_indep (disk : Int → Mem) (blockSize : Nat)
    (st : UncompressedStringSegmentState) (r1 r2 : ResultVec) (b : Int) (o : Nat) :
    (readOverflowString disk blockSize st r1 b o).1 =
      (readOverflowString disk blockSize st r2 b o).1 := by
  unfold readOverflowString
  by_cases h : b < MAXIMUM_BLOCK
  · rw [if_pos h, if_pos h]
    by_cases h2 : blockSize ≤ readU32 (disk b) o
    · rw [if_pos h2, if_pos h2]
    · rw [if_neg h2, if_neg h2]
  · rw [if_neg h, if_neg h]
    cases hfind : findOverflowBlock st.head b <;> simp [hfind]

/-- The string fetched from the dictionary does not depend on the state of
the result vector. -/
theorem fetchStringFromDict_fst_indep (disk : Int → Mem) (blockSize : Nat)
    (st : UncompressedStringSegmentState) (r1 r2 : ResultVec) (mem : Mem)
    (dictEnd : Nat) (dictOffset : Int) (stringLength : Nat) :
    (fetchStringFromDict disk blockSize st r1 mem dictEnd dictOffset stringLength).1 =
      (fetchStringFromDict disk blockSize st r2 mem dictEnd dictOffset stringLength).1 := by
  unfold fetchStringFromDict
  by_cases h : dictOffset < 0
  · rw [if_pos h, if_pos h]
    exact readOverflowString_fst_indep disk blockSize st r1 r2 _ _
  · rw [if_neg h, if_neg h]

theorem scanRowValue_congr (disk : Int → Mem) (blockSize : Nat)
    (st : UncompressedStringSegmentState) (mem : Mem) (dictEnd : Nat)
    {p1 p2 : Int} {i1 i2 : Nat} (hp : p1 = p2) (hi : i1 = i2) :
    scanRowValue disk blockSize st mem dictEnd p1 i1 =
      scanRowValue disk blockSize st mem dictEnd p2 i2 := by
  rw [hp, hi]

/-- The values produced by the scan loop: position `i` holds the row value of
row `idx + i`, whose previous offset is the loop's entering `prev` for
`i = 0` and `offset[idx + i - 1]` afterwards — exactly the loop-carried
previous offset. -/
theorem scanLoop_fst (disk : Int → Mem) (blockSize : Nat)
    (st : UncompressedStringSegmentState) (mem : Mem) (dictEnd : Nat) :
    ∀ (count idx : Nat) (prev : Int) (r : ResultVec),
    (scanLoop disk blockSize st mem dictEnd idx prev count r).1 =
      (List.range count).map (fun i => scanRowValue disk blockSize st mem dictEnd
        (if i = 0 then prev
         else readI32 mem (DICTIONARY_HEADER_SIZE + 4 * (idx + i - 1))) (idx + i)) := by
  intro count
  induction count with
  | zero => intro idx prev r; simp [scanLoop]
  | succ count ih =>
    intro idx prev r
    simp only [scanLoop]
    rw [List.range_succ_eq_map, List.map_cons, List.map_map, List.cons.injEq]
    constructor
    · rw [if_pos rfl, Nat.add_zero]
      unfold scanRowValue
      exact fetchStringFromDict_fst_indep disk blockSize st r ⟨[], [], []⟩ mem dictEnd _ _
    · rw [ih (idx + 1) (readI32 mem (DICTIONARY_HEADER_SIZE + 4 * idx)) _]
      apply List.map_congr_left
      intro i _
      simp only [Function.comp_apply]
      by_cases hi : i = 0
      · subst hi
        rw [if_pos rfl, if_neg (by omega)]
        refine scanRowValue_congr disk blockSize st mem dictEnd ?_ (by omega)
        have harg : idx + Nat.succ 0 - 1 = idx := by omega
        rw [harg]
      · rw [if_neg hi, if_neg (by omega)]
        refine scanRowValue_congr disk blockSize st mem dictEnd ?_ (by omega)
        have harg : idx + 1 + i - 1 = idx + Nat.succ i - 1 := by omega
        rw [harg]

/-- Congruence for the fetched string value: the result vector does not
matter for the value, and equal offset/length arguments give equal values. -/
theorem fetch_fst_congr (disk : Int → Mem) (blockSize : Nat)
    (st : UncompressedStringSegmentState) (r1 r2 : ResultVec) (mem : Mem)
    (dictEnd : Nat) {o1 o2 : Int} {l1 l2 : Nat} (ho : o1 = o2) (hl : l1 = l2) :
    (fetchStringFromDict disk blockSize st r1 mem dictEnd o1 l1).1 =
      (fetchStringFromDict disk blockSize st r2 mem dictEnd o2 l2).1 := by
  subst ho
  subst hl
  exact fetchStringFromDict_fst_indep disk blockSize st r1 r2 mem dictEnd o1 l1

/-- The single-row fetch equals the scan's row value computed with the
previous offset `offset[rowId-1]` (0 for the first row). -/
theorem stringFetchRow_eq_scanRowValue (disk : Int → Mem) (blockSize : Nat)
    (st : UncompressedStringSegmentState) (mem : Mem) (rowId : Nat) (r : ResultVec) :
    (stringFetchRow disk blockSize st mem rowId r).1 =
      scanRowValue disk blockSize st mem (getDictionaryEnd mem)
        (if rowId = 0 then 0
         else readI32 mem (DICTIONARY_HEADER_SIZE + 4 * (rowId - 1))) rowId := by
  refine fetch_fst_congr disk blockSize st r ⟨[], [], []⟩ mem (getDictionaryEnd mem) rfl ?_
  by_cases h0 : rowId = 0
  · rw [if_pos h0, if_pos h0]
    have hrange := readI32_range mem (DICTIONARY_HEADER_SIZE + 4 * rowId)
    have hlen : ((((readI32 mem (DICTIONARY_HEADER_SIZE + 4 * rowId)).natAbs : Int) -
        (((0 : Int).natAbs : Nat) : Int)).emod (2 ^ 32)).toNat =
        (readI32 mem (DICTIONARY_HEADER_SIZE + 4 * rowId)).natAbs := by
      simp only [Int.natAbs_zero, Nat.cast_zero, sub_zero]
      have hm : ((readI32 mem (DICTIONARY_HEADER_SIZE + 4 * rowId)).natAbs : Int).emod
          (2 ^ 32) = ((readI32 mem (DICTIONARY_HEADER_SIZE + 4 * rowId)).natAbs : Int) := by
        apply Int.emod_eq_of_lt
        · exact_mod_cast Nat.zero_le _
        · omega
      rw [hm]
      omega
    rw [hlen]
  · rw [if_neg h0, if_neg h0]

/-! ### C4: FetchRow agrees with Scan -/

/-- C4: for every segment memory, state and row count `n`, and every
`i < n`, `FetchRow(i)` returns the same value as position `i` of
`Scan(0, n)`; for `i = 0` both take the previous offset to be 0 without
reading `offset[-1]`. -/
theorem stringFetchRow_eq_scan (disk : Int → Mem) (blockSize : Nat)
    (st : UncompressedStringSegmentState) (mem : Mem) (n i : Nat)
    (r : ResultVec) (hi : i < n) :
    (stringScanPartial disk blockSize st mem 0 n r).1[i]? =
      some ((stringFetchRow disk blockSize st mem i r).1) := by
  unfold stringScanPartial
  rw [if_neg (by omega)]
  rw [scanLoop_fst disk blockSize st mem (getDictionaryEnd mem) n 0 0 r]
  rw [List.getElem?_map]
  simp only [List.getElem?_range hi, Option.map_some]
  rw [stringFetchRow_eq_scanRowValue disk blockSize st mem i r]
  by_cases h0 : i = 0
  · subst h0
    refine congrArg some (scanRowValue_congr disk blockSize st mem _ ?_ (by omega))
    simp
  · refine congrArg some (scanRowValue_congr disk blockSize st mem _ ?_ (by omega))
    rw [if_neg h0, if_neg h0]
    have harg : (0 : Nat) + i - 1 = i - 1 := by omega
    rw [harg]

/-- Witness for C4 at concrete inputs. -/
theorem stringFetchRow_eq_scan_witness :
    (stringScanPartial diskSmall 32 ⟨[], [], MAXIMUM_BLOCK⟩
        (writeI32 (setDictionary memZero ⟨3, 32⟩) 8 3) 0 1 ⟨[], [], []⟩).1[0]? =
      some ((stringFetchRow diskSmall 32 ⟨[], [], MAXIMUM_BLOCK⟩
        (writeI32 (setDictionary memZero ⟨3, 32⟩) 8 3) 0 ⟨[], [], []⟩).1) :=
  stringFetchRow_eq_scan diskSmall 32 ⟨[], [], MAXIMUM_BLOCK⟩
    (writeI32 (setDictionary memZero ⟨3, 32⟩) 8 3) 1 0 ⟨[], [], []⟩ (by omega)

/-- The single-row fetch does not depend on the state of the result
vector. -/
theorem stringFetchRow_fst_indep (disk : Int → Mem) (blockSize : Nat)
    (st : UncompressedStringSegmentState) (mem : Mem) (rowId : Nat)
    (r1 r2 : ResultVec) :
    (stringFetchRow disk blockSize st mem rowId r1).1 =
      (stringFetchRow disk blockSize st mem rowId r2).1 := by
  unfold stringFetchRow
  exact fetchStringFromDict_fst_indep disk blockSize st r1 r2 mem _ _ _

/-! ### C5: Select resolves each index independently -/

/-- C5: `Select` returns, at each output position `i`, exactly the value of
row `start + sel[i]` as fetched by the single-row path (previous offset
`offset[index-1]`, 0 when the index is 0) — so the result at a position is
independent of the order and multiplicity of the other selected indices. -/
theorem select_eq_fetchRow (disk : Int → Mem) (blockSize : Nat)
    (st : UncompressedStringSegmentState) (mem : Mem) (start : Nat) :
    ∀ (sel : List Nat) (r : ResultVec) (i : Nat) (hi : i < sel.length),
    (select disk blockSize st mem start sel r).1[i]? =
      some ((stringFetchRow disk blockSize st mem (start + sel.get ⟨i, hi⟩) r).1) := by
  intro sel
  induction sel with
  | nil => intro r i hi; simp at hi
  | cons s rest ih =>
    intro r i hi
    cases i with
    | zero =>
      have hget : (s :: rest).get ⟨0, hi⟩ = s := rfl
      rw [hget]
      simp only [select, List.getElem?_cons_zero, Option.some.injEq]
      rw [stringFetchRow_eq_scanRowValue disk blockSize st mem (start + s) r]
      unfold scanRowValue
      have hprev : (if 0 < start + s then
            readI32 mem (DICTIONARY_HEADER_SIZE + 4 * (start + s - 1)) else 0) =
          (if start + s = 0 then 0
            else readI32 mem (DICTIONARY_HEADER_SIZE + 4 * (start + s - 1))) := by
        by_cases h0 : start + s = 0
        · rw [if_neg (by omega), if_pos h0]
        · rw [if_pos (by omega), if_neg h0]
      rw [hprev]
      exact fetchStringFromDict_fst_indep disk blockSize st r ⟨[], [], []⟩ mem _ _ _
    | succ j =>
      have hj : j < rest.length := by
        simpa using Nat.lt_of_succ_lt_succ hi
      simp only [select, List.getElem?_cons_succ, List.get_cons_succ]
      rw [ih _ j hj]
      exact congrArg some (stringFetchRow_fst_indep disk blockSize st mem _ _ r)

/-- Witness for C5: a two-element selection with a repeated index. -/
theorem select_eq_fetchRow_witness :
    (select diskSmall 32 ⟨[], [], MAXIMUM_BLOCK⟩
        (writeI32 (setDictionary memZero ⟨3, 32⟩) 8 3) 0 [0, 0] ⟨[], [], []⟩).1[1]? =
      some ((stringFetchRow diskSmall 32 ⟨[], [], MAXIMUM_BLOCK⟩
        (writeI32 (setDictionary memZero ⟨3, 32⟩) 8 3) 0 ⟨[], [], []⟩).1) :=
  select_eq_fetchRow diskSmall 32 ⟨[], [], MAXIMUM_BLOCK⟩
    (writeI32 (setDictionary memZero ⟨3, 32⟩) 8 3) 0 [0, 0] ⟨[], [], []⟩ 1 (by decide)

/-! ### The append-path invariant

The dictionary-size increment of an appended value, the cumulative
dictionary size of a value sequence, and the signed cumulative offset entry
of each row. -/

def incOf (threshold : Nat) (v : List Nat) : Nat :=
  if threshold ≤ v.length then BIG_STRING_MARKER_SIZE else v.length

def cumSize (threshold : Nat) (vs : List (List Nat)) : Nat :=
  (vs.map (incOf threshold)).sum

def entryVal (threshold : Nat) (vs : List (List Nat)) (j : Nat) : Int :=
  if threshold ≤ (vs.getD j []).length then -(cumSize threshold (vs.take (j + 1)) : Int)
  else (cumSize threshold (vs.take (j + 1)) : Int)

theorem cumSize_append (t : Nat) (vs : List (List Nat)) (v : List Nat) :
    cumSize t (vs ++ [v]) = cumSize t vs + incOf t v := by
  simp [cumSize]

theorem cumSize_take_le (t k : Nat) (vs : List (List Nat)) :
    cumSize t (vs.take k) ≤ cumSize t vs := by
  conv_rhs => rw [← List.take_append_drop k vs]
  rw [cumSize, cumSize, List.map_append, List.sum_append]
  omega

theorem cumSize_take_succ (t j : Nat) (vs : List (List Nat)) (h : j < vs.length) :
    cumSize t (vs.take (j + 1)) = cumSize t (vs.take j) + incOf t (vs.getD j []) := by
  rw [List.take_succ]
  have hj : vs[j]? = some (vs.getD j []) := by
    rw [List.getD_eq_getElem?_getD, List.getElem?_eq_getElem h]
    simp [List.getElem?_eq_getElem h]
  rw [hj]
  simp [cumSize]

theorem cumSize_take_mono (t : Nat) (vs : List (List Nat)) {j k : Nat} (h : j ≤ k) :
    cumSize t (vs.take j) ≤ cumSize t (vs.take k) := by
  have h1 : vs.take j = (vs.take k).take j := by
    rw [List.take_take, Nat.min_eq_left h]
  rw [h1]
  exact cumSize_take_le t j (vs.take k)

/-- A length-prefixed string stored in the in-memory overflow chain at
`(block b, offset o)`, entirely below the owning node's write offset. -/
def storedInState (st : UncompressedStringSegmentState) (b : Int) (o : Nat)
    (v : List Nat) : Prop :=
  ∃ node, findOverflowBlock st.head b = some node ∧ o + 4 + v.length ≤ node.offset ∧
    readU32 node.mem o = v.length ∧ readBytes node.mem (o + 4) v.length = v

/-- Well-formedness of the overflow chain state: every node's identifier is a
temporary (in-memory) id below the allocator's next id, its write offset is
within its buffer, and its buffer size fits an `int32`. -/
def nodesOk (st : UncompressedStringSegmentState) : Prop :=
  (∀ node ∈ st.head, MAXIMUM_BLOCK ≤ node.blockId ∧ node.blockId < st.nextId ∧
    node.offset ≤ node.size ∧ node.size < 2 ^ 31) ∧
  MAXIMUM_BLOCK ≤ st.nextId

/-- The string written by `WriteStringMemory` is stored in the resulting
state at the returned block/offset pair. -/
theorem writeStringMemory_stores (blockSize : Nat)
    (st : UncompressedStringSegmentState) (v : List Nat) (hlen : v.length < 2 ^ 32) :
    storedInState (writeStringMemory blockSize st v).1
      (writeStringMemory blockSize st v).2.1 (writeStringMemory blockSize st v).2.2 v := by
  match hh : st.head with
  | [] =>
    obtain ⟨hr, hb⟩ := stored_write memZero 0 v hlen
    refine ⟨⟨max (v.length + 4) blockSize, 0 + (v.length + 4), st.nextId,
      writeBytes (writeU32 memZero 0 v.length) (0 + 4) v⟩, ?_, ?_, ?_, ?_⟩
    · simp [writeStringMemory, hh, findOverflowBlock]
    · simp only [writeStringMemory, hh]
      omega
    · simpa [writeStringMemory, hh] using hr
    · simpa [writeStringMemory, hh] using hb
  | hd :: tl =>
    by_cases hfit : hd.size ≤ hd.offset + (v.length + 4)
    · obtain ⟨hr, hb⟩ := stored_write memZero 0 v hlen
      refine ⟨⟨max (v.length + 4) blockSize, 0 + (v.length + 4), st.nextId,
        writeBytes (writeU32 memZero 0 v.length) (0 + 4) v⟩, ?_, ?_, ?_, ?_⟩
      · simp [writeStringMemory, hh, hfit, findOverflowBlock]
      · simp only [writeStringMemory, hh, if_pos hfit]
        omega
      · simpa [writeStringMemory, hh, hfit] using hr
      · simpa [writeStringMemory, hh, hfit] using hb
    · obtain ⟨hr, hb⟩ := stored_write hd.mem hd.offset v hlen
      refine ⟨⟨hd.size, hd.offset + (v.length + 4), hd.blockId,
        writeBytes (writeU32 hd.mem hd.offset v.length) (hd.offset + 4) v⟩, ?_, ?_, ?_, ?_⟩
      · simp [writeStringMemory, hh, hfit, findOverflowBlock]
      · simp only [writeStringMemory, hh, if_neg hfit]
        omega
      · simpa [writeStringMemory, hh, hfit] using hr
      · simpa [writeStringMemory, hh, hfit] using hb

/-- `WriteStringMemory` does not disturb strings already stored in the chain
(for block identifiers the allocator has already handed out). -/
theorem writeStringMemory_preserves (blockSize : Nat)
    (st : UncompressedStringSegmentState) (v : List Nat) (b : Int) (o : Nat)
    (w : List Nat) (hb : b < st.nextId) (hs : storedInState st b o w) :
    storedInState (writeStringMemory blockSize st v).1 b o w := by
  obtain ⟨node, hfind, hext, hu, hbytes⟩ := hs
  match hh : st.head with
  | [] =>
    rw [hh] at hfind
    simp [findOverflowBlock] at hfind
  | hd :: tl =>
    rw [hh] at hfind
    by_cases hfit : hd.size ≤ hd.offset + (v.length + 4)
    · -- a fresh block becomes the head; the old chain is untouched
      refine ⟨node, ?_, hext, hu, hbytes⟩
      have hne : st.nextId ≠ b := by omega
      simp only [writeStringMemory, hh, if_pos hfit]
      simp only [findOverflowBlock, if_neg hne]
      exact hfind
    · -- the write goes into the head, at or above its current offset
      simp only [findOverflowBlock] at hfind
      by_cases hbid : hd.blockId = b
      · rw [if_pos hbid] at hfind
        have heq : hd = node := by injection hfind
        subst heq
        refine ⟨⟨hd.size, hd.offset + (v.length + 4), hd.blockId,
          writeBytes (writeU32 hd.mem hd.offset v.length) (hd.offset + 4) v⟩, ?_, ?_, ?_, ?_⟩
        · simp [writeStringMemory, hh, hfit, findOverflowBlock, hbid]
        · simp only [writeStringMemory, hh, if_neg hfit]
          omega
        · have : readU32 (writeBytes (writeU32 hd.mem hd.offset v.length)
              (hd.offset + 4) v) o = readU32 hd.mem o := by
            refine readU32_congr (fun r hr => ?_)
            rw [writeBytes_out (by omega), writeU32_out (by omega)]
          rw [this]
          exact hu
        · have : readBytes (writeBytes (writeU32 hd.mem hd.offset v.length)
              (hd.offset + 4) v) (o + 4) w.length = readBytes hd.mem (o + 4) w.length := by
            refine readBytes_congr w.length (fun r hr => ?_)
            rw [writeBytes_out (by omega), writeU32_out (by omega)]
          rw [this]
          exact hbytes
      · rw [if_neg hbid] at hfind
        refine ⟨node, ?_, hext, hu, hbytes⟩
        simp only [writeStringMemory, hh, if_neg hfit]
        simp only [findOverflowBlock, if_neg hbid]
        exact hfind

/-- State evolution facts of `WriteStringMemory`: chain well-formedness is
preserved, the allocator advances by at most one id, and the returned pair
is an already-allocated in-memory block id with an `int32`-safe offset. -/
theorem writeStringMemory_state (blockSize : Nat)
    (st : UncompressedStringSegmentState) (v : List Nat) (hnodes : nodesOk st)
    (hlen31 : v.length + 4 < 2 ^ 31) (hbs : blockSize < 2 ^ 31) :
    nodesOk (writeStringMemory blockSize st v).1 ∧
      st.nextId ≤ (writeStringMemory blockSize st v).1.nextId ∧
      (writeStringMemory blockSize st v).1.nextId ≤ st.nextId + 1 ∧
      MAXIMUM_BLOCK ≤ (writeStringMemory blockSize st v).2.1 ∧
      (writeStringMemory blockSize st v).2.1 < (writeStringMemory blockSize st v).1.nextId ∧
      ((writeStringMemory blockSize st v).2.2 : Nat) < 2 ^ 31 ∧
      (writeStringMemory blockSize st v).1.onDiskBlocks = st.onDiskBlocks := by
  obtain ⟨hall, hnext⟩ := hnodes
  match hh : st.head with
  | [] =>
    simp only [writeStringMemory, hh]
    refine ⟨⟨?_, by (try dsimp only); omega⟩, by (try dsimp only); omega, by (try dsimp only); omega, by (try dsimp only); omega, by (try dsimp only); omega, by (try dsimp only); omega, by trivial⟩
    intro node hmem
    simp at hmem
    subst hmem
    refine ⟨by (try dsimp only); omega, by (try dsimp only); omega, by (try dsimp only); omega, by (try dsimp only); omega⟩
  | hd :: tl =>
    have hhd := hall hd (by rw [hh]; exact List.mem_cons_self hd tl)
    by_cases hfit : hd.size ≤ hd.offset + (v.length + 4)
    · simp only [writeStringMemory, hh, if_pos hfit]
      refine ⟨⟨?_, by (try dsimp only); omega⟩, by (try dsimp only); omega, by (try dsimp only); omega, by (try dsimp only); omega, by (try dsimp only); omega, by (try dsimp only); omega, by trivial⟩
      intro node hmem
      simp only [List.mem_cons] at hmem
      rcases hmem with h | h | h
      · subst h
        refine ⟨by (try dsimp only); omega, by (try dsimp only); omega, by (try dsimp only); omega, by (try dsimp only); omega⟩
      · subst h
        refine ⟨by (try dsimp only); omega, by (try dsimp only); omega, by (try dsimp only); omega, by (try dsimp only); omega⟩
      · have := hall node (by rw [hh]; exact List.mem_cons_of_mem hd h)
        refine ⟨by (try dsimp only); omega, by (try dsimp only); omega, by (try dsimp only); omega, by (try dsimp only); omega⟩
    · simp only [writeStringMemory, hh, if_neg hfit]
      refine ⟨⟨?_, by (try dsimp only); omega⟩, by (try dsimp only); omega, by (try dsimp only); omega, by (try dsimp only); omega, by (try dsimp only); omega, by (try dsimp only); omega, by trivial⟩
      intro node hmem
      simp only [List.mem_cons] at hmem
      rcases hmem with h | h
      · subst h
        refine ⟨by (try dsimp only); omega, by (try dsimp only); omega, by (try dsimp only); omega, by (try dsimp only); omega⟩
      · have := hall node (by rw [hh]; exact List.mem_cons_of_mem hd h)
        refine ⟨by (try dsimp only); omega, by (try dsimp only); omega, by (try dsimp only); omega, by (try dsimp only); omega⟩

theorem entryVal_append (t : Nat) (vs : List (List Nat)) (v : List Nat) (j : Nat)
    (h : j < vs.length) : entryVal t (vs ++ [v]) j = entryVal t vs j := by
  unfold entryVal
  rw [List.getD_append _ _ _ _ h, List.take_append_of_le_length (by omega)]

theorem getD_append_last (vs : List (List Nat)) (v : List Nat) :
    (vs ++ [v]).getD vs.length [] = v := by
  rw [List.getD_append_right _ _ _ _ (le_refl _)]
  simp

theorem take_append_last (vs : List (List Nat)) (v : List Nat) :
    (vs ++ [v]).take (vs.length + 1) = vs ++ [v] := by
  have h : (vs ++ [v]).length = vs.length + 1 := by simp
  rw [← h, List.take_length]

theorem cumSize_take_append (t : Nat) (vs : List (List Nat)) (v : List Nat) (k : Nat)
    (h : k ≤ vs.length) :
    cumSize t ((vs ++ [v]).take k) = cumSize t (vs.take k) := by
  rw [List.take_append_of_le_length h]

/-- The invariant of a segment holding the appended values `vs` (block size
`B`, dictionary end `D`, overflow threshold `t`): the dictionary header holds
`{cumSize vs, D}`, row `j`'s offset entry is the signed cumulative offset,
inline rows' payloads sit at `D - cum(j+1)`, overflow rows' markers sit there
instead and resolve through the in-memory overflow chain, and the chain state
is well formed. -/
structure SegInv (B D t : Nat) (vs : List (List Nat)) (sg : Segment)
    (st : UncompressedStringSegmentState) : Prop where
  count_eq : sg.count = vs.length
  seg_size : sg.segSize = B
  hdr_size : readU32 sg.mem 0 = cumSize t vs
  hdr_end : readU32 sg.mem 4 = D
  entries : ∀ j, j < vs.length →
    readI32 sg.mem (DICTIONARY_HEADER_SIZE + 4 * j) = entryVal t vs j
  inline_ok : ∀ j, j < vs.length → (vs.getD j []).length < t →
    readBytes sg.mem (D - cumSize t (vs.take (j + 1))) (vs.getD j []).length = vs.getD j []
  over_ok : ∀ j, j < vs.length → t ≤ (vs.getD j []).length →
    ∃ (b : Int) (o : Nat), readI64 sg.mem (D - cumSize t (vs.take (j + 1))) = b ∧
      readI32 sg.mem (D - cumSize t (vs.take (j + 1)) + 8) = (o : Int) ∧
      MAXIMUM_BLOCK ≤ b ∧ b < st.nextId ∧ o < 2 ^ 31 ∧
      storedInState st b o (vs.getD j [])
  nodes : nodesOk st
  next_bound : st.nextId ≤ MAXIMUM_BLOCK + (vs.length : Int)

/-- Appending an inline value preserves the segment invariant. -/
theorem appendValue_inv_inline (B t : Nat) (vs : List (List Nat)) (v : List Nat)
    (sg : Segment) (st : UncompressedStringSegmentState)
    (inv : SegInv B B t vs sg st) (hB31 : B < 2 ^ 31)
    (hfit : DICTIONARY_HEADER_SIZE + 4 * (vs.length + 1) + cumSize t (vs ++ [v]) ≤ B)
    (hov : ¬ t ≤ v.length) :
    SegInv B B t (vs ++ [v]) (appendValue B t (sg, st) v).1
      (appendValue B t (sg, st) v).2 := by
  have hdict : getDictionary sg.mem = ⟨cumSize t vs, B⟩ := by
    unfold getDictionary
    rw [inv.hdr_size, inv.hdr_end]
  have hinc : incOf t v = v.length := by
    unfold incOf
    rw [if_neg hov]
  have hS' : cumSize t (vs ++ [v]) = cumSize t vs + v.length := by
    rw [cumSize_append, hinc]
  rw [hS'] at hfit
  have hn := inv.count_eq
  have hDH : DICTIONARY_HEADER_SIZE = 8 := rfl
  have hBM : BIG_STRING_MARKER_SIZE = 12 := rfl
  have happ : appendValue B t (sg, st) v =
      (⟨setDictionary
          (writeI32 (writeBytes sg.mem (B - (cumSize t vs + v.length)) v)
            (DICTIONARY_HEADER_SIZE + 4 * sg.count)
            ((cumSize t vs + v.length : Nat) : Int))
          ⟨cumSize t vs + v.length, B⟩,
        sg.count + 1, sg.segSize⟩, st) := by
    simp only [appendValue, hdict, if_neg hov]
  set S := cumSize t vs with hSdef
  set L := v.length with hLdef
  -- pointwise: positions below the offset write and outside the new dictionary
  -- span are untouched
  have hout : ∀ q, 8 ≤ q → (q < DICTIONARY_HEADER_SIZE + 4 * sg.count ∨
      DICTIONARY_HEADER_SIZE + 4 * sg.count + 4 ≤ q) →
      (q < B - (S + L) ∨ B - S ≤ q) →
      setDictionary
        (writeI32 (writeBytes sg.mem (B - (S + L)) v)
          (DICTIONARY_HEADER_SIZE + 4 * sg.count) ((S + L : Nat) : Int))
        ⟨S + L, B⟩ q = sg.mem q := by
    intro q h8 hoff hdictout
    rw [setDictionary_out _ _ h8, writeI32_out hoff, writeBytes_out (by
      rcases hdictout with h | h
      · exact Or.inl h
      · right
        omega)]
  refine ⟨?_, ?_, ?_, ?_, ?_, ?_, ?_, ?_, ?_⟩
  · rw [happ]
    simp [inv.count_eq]
  · rw [happ]
    exact inv.seg_size
  · rw [happ, hS']
    exact readU32_setDictionary_size _ _ (by dsimp only; omega)
  · rw [happ]
    exact readU32_setDictionary_end _ _ (by dsimp only; omega)
  · intro j hj
    rw [happ]
    simp only [List.length_append, List.length_cons, List.length_nil] at hj
    by_cases hjn : j < vs.length
    · have hpres : ∀ r, r < 4 → setDictionary
          (writeI32 (writeBytes sg.mem (B - (S + L)) v)
            (DICTIONARY_HEADER_SIZE + 4 * sg.count) ((S + L : Nat) : Int))
          ⟨S + L, B⟩ (DICTIONARY_HEADER_SIZE + 4 * j + r) =
          sg.mem (DICTIONARY_HEADER_SIZE + 4 * j + r) := by
        intro r hr
        refine hout _ (by omega) ?_ ?_
        · omega
        · left
          omega
      have : readI32 (setDictionary
          (writeI32 (writeBytes sg.mem (B - (S + L)) v)
            (DICTIONARY_HEADER_SIZE + 4 * sg.count) ((S + L : Nat) : Int))
          ⟨S + L, B⟩) (DICTIONARY_HEADER_SIZE + 4 * j) =
          readI32 sg.mem (DICTIONARY_HEADER_SIZE + 4 * j) :=
        readI32_congr hpres
      rw [this, inv.entries j hjn, entryVal_append t vs v j hjn]
    · have hjeq : j = vs.length := by omega
      subst hjeq
      have h1 : readI32 (setDictionary
          (writeI32 (writeBytes sg.mem (B - (S + L)) v)
            (DICTIONARY_HEADER_SIZE + 4 * sg.count) ((S + L : Nat) : Int))
          ⟨S + L, B⟩) (DICTIONARY_HEADER_SIZE + 4 * vs.length) =
          readI32 (writeI32 (writeBytes sg.mem (B - (S + L)) v)
            (DICTIONARY_HEADER_SIZE + 4 * sg.count) ((S + L : Nat) : Int))
          (DICTIONARY_HEADER_SIZE + 4 * vs.length) :=
        readI32_congr (fun r hr => setDictionary_out _ _ (by omega))
      rw [h1, hn, readI32_writeI32 _ _ _ (by omega)]
      unfold entryVal
      rw [getD_append_last, if_neg hov, take_append_last, hS']
  · intro j hj hlen
    rw [happ]
    simp only [List.length_append, List.length_cons, List.length_nil] at hj
    by_cases hjn : j < vs.length
    · rw [List.getD_append _ _ _ _ hjn] at hlen ⊢
      rw [cumSize_take_append t vs v (j + 1) (by omega)]
      have hcum := cumSize_take_succ t j vs hjn
      have hcum1 : cumSize t (vs.take (j + 1)) ≤ S := cumSize_take_le t (j + 1) vs
      have hincj : incOf t (vs.getD j []) = (vs.getD j []).length := by
        unfold incOf
        rw [if_neg (by omega)]
      have hpres : ∀ r, r < (vs.getD j []).length → setDictionary
          (writeI32 (writeBytes sg.mem (B - (S + L)) v)
            (DICTIONARY_HEADER_SIZE + 4 * sg.count) ((S + L : Nat) : Int))
          ⟨S + L, B⟩ (B - cumSize t (vs.take (j + 1)) + r) =
          sg.mem (B - cumSize t (vs.take (j + 1)) + r) := by
        intro r hr
        refine hout _ (by omega) ?_ ?_
        · right
          omega
        · right
          omega
      rw [readBytes_congr _ hpres]
      exact inv.inline_ok j hjn hlen
    · have hjeq : j = vs.length := by omega
      subst hjeq
      rw [getD_append_last, take_append_last, hS']
      have h1 : ∀ r, r < v.length → setDictionary
          (writeI32 (writeBytes sg.mem (B - (S + L)) v)
            (DICTIONARY_HEADER_SIZE + 4 * sg.count) ((S + L : Nat) : Int))
          ⟨S + L, B⟩ (B - (S + L) + r) =
          writeBytes sg.mem (B - (S + L)) v (B - (S + L) + r) := by
        intro r hr
        rw [setDictionary_out _ _ (by omega),
          writeI32_out (by right; omega)]
      rw [readBytes_congr _ h1]
      exact writeBytes_read_self sg.mem (B - (S + L)) v
  · intro j hj hlen
    rw [happ]
    simp only [List.length_append, List.length_cons, List.length_nil] at hj
    by_cases hjn : j < vs.length
    · rw [List.getD_append _ _ _ _ hjn] at hlen ⊢
      rw [cumSize_take_append t vs v (j + 1) (by omega)]
      obtain ⟨b, o, hi64, hi32, hbmax, hblt, ho31, hstored⟩ := inv.over_ok j hjn hlen
      have hcum := cumSize_take_succ t j vs hjn
      have hcum1 : cumSize t (vs.take (j + 1)) ≤ S := cumSize_take_le t (j + 1) vs
      have hincj : incOf t (vs.getD j []) = BIG_STRING_MARKER_SIZE := by
        unfold incOf
        rw [if_pos hlen]
      have hpres : ∀ r, r < 12 → setDictionary
          (writeI32 (writeBytes sg.mem (B - (S + L)) v)
            (DICTIONARY_HEADER_SIZE + 4 * sg.count) ((S + L : Nat) : Int))
          ⟨S + L, B⟩ (B - cumSize t (vs.take (j + 1)) + r) =
          sg.mem (B - cumSize t (vs.take (j + 1)) + r) := by
        intro r hr
        refine hout _ (by omega) ?_ ?_
        · right
          omega
        · right
          omega
      refine ⟨b, o, ?_, ?_, hbmax, hblt, ho31, hstored⟩
      · rw [readI64_congr (fun r hr => hpres r (by omega))]
        exact hi64
      · have h2 : ∀ r, r < 4 → setDictionary
            (writeI32 (writeBytes sg.mem (B - (S + L)) v)
              (DICTIONARY_HEADER_SIZE + 4 * sg.count) ((S + L : Nat) : Int))
            ⟨S + L, B⟩ (B - cumSize t (vs.take (j + 1)) + 8 + r) =
            sg.mem (B - cumSize t (vs.take (j + 1)) + 8 + r) := by
          intro r hr
          refine hout _ (by omega) ?_ ?_
          · right
            omega
          · right
            omega
        rw [readI32_congr h2]
        exact hi32
    · have hjeq : j = vs.length := by omega
      subst hjeq
      rw [getD_append_last] at hlen
      omega
  · rw [happ]
    exact inv.nodes
  · rw [happ]
    have := inv.next_bound
    simp only [List.length_append, List.length_cons, List.length_nil]
    push_cast at this ⊢
    omega

/-- Appending an overflow value preserves the segment invariant. -/
theorem appendValue_inv_over (B t : Nat) (vs : List (List Nat)) (v : List Nat)
    (sg : Segment) (st : UncompressedStringSegmentState)
    (inv : SegInv B B t vs sg st) (hB31 : B < 2 ^ 31)
    (hfit : DICTIONARY_HEADER_SIZE + 4 * (vs.length + 1) + cumSize t (vs ++ [v]) ≤ B)
    (hov : t ≤ v.length) (hv31 : v.length + 4 < 2 ^ 31) :
    SegInv B B t (vs ++ [v]) (appendValue B t (sg, st) v).1
      (appendValue B t (sg, st) v).2 := by
  have hdict : getDictionary sg.mem = ⟨cumSize t vs, B⟩ := by
    unfold getDictionary
    rw [inv.hdr_size, inv.hdr_end]
  have hinc : incOf t v = BIG_STRING_MARKER_SIZE := by
    unfold incOf
    rw [if_pos hov]
  have hS' : cumSize t (vs ++ [v]) = cumSize t vs + BIG_STRING_MARKER_SIZE := by
    rw [cumSize_append, hinc]
  rw [hS'] at hfit
  have hn := inv.count_eq
  have hDH : DICTIONARY_HEADER_SIZE = 8 := rfl
  have hBM : BIG_STRING_MARKER_SIZE = 12 := rfl
  have hMB : MAXIMUM_BLOCK = 2 ^ 62 := rfl
  have hnb := inv.next_bound
  obtain ⟨hnodes', hnle, hnle1, hbmax, hblt', ho31, hdiskeq⟩ :=
    writeStringMemory_state B st v inv.nodes hv31 hB31
  have hstored := writeStringMemory_stores B st v (by omega)
  have happ : appendValue B t (sg, st) v =
      (⟨setDictionary
          (writeI32 (writeStringMarker sg.mem
              (B - (cumSize t vs + BIG_STRING_MARKER_SIZE))
              (writeStringMemory B st v).2.1
              (((writeStringMemory B st v).2.2 : Nat) : Int))
            (DICTIONARY_HEADER_SIZE + 4 * sg.count)
            (-((cumSize t vs + BIG_STRING_MARKER_SIZE : Nat) : Int)))
          ⟨cumSize t vs + BIG_STRING_MARKER_SIZE, B⟩,
        sg.count + 1, sg.segSize⟩, (writeStringMemory B st v).1) := by
    simp only [appendValue, hdict, if_pos hov]
  set S := cumSize t vs with hSdef
  have hout : ∀ q, 8 ≤ q → (q < DICTIONARY_HEADER_SIZE + 4 * sg.count ∨
      DICTIONARY_HEADER_SIZE + 4 * sg.count + 4 ≤ q) →
      (q < B - (S + BIG_STRING_MARKER_SIZE) ∨ B - S ≤ q) →
      setDictionary
        (writeI32 (writeStringMarker sg.mem (B - (S + BIG_STRING_MARKER_SIZE))
            (writeStringMemory B st v).2.1 (((writeStringMemory B st v).2.2 : Nat) : Int))
          (DICTIONARY_HEADER_SIZE + 4 * sg.count)
          (-((S + BIG_STRING_MARKER_SIZE : Nat) : Int)))
        ⟨S + BIG_STRING_MARKER_SIZE, B⟩ q = sg.mem q := by
    intro q h8 hoff hd
    rw [setDictionary_out _ _ h8, writeI32_out hoff]
    unfold writeStringMarker
    rw [writeI32_out (by omega), writeI64_out (by omega)]
  refine ⟨?_, ?_, ?_, ?_, ?_, ?_, ?_, ?_, ?_⟩
  · rw [happ]
    simp [inv.count_eq]
  · rw [happ]
    exact inv.seg_size
  · rw [happ, hS']
    exact readU32_setDictionary_size _ _ (by dsimp only; omega)
  · rw [happ]
    exact readU32_setDictionary_end _ _ (by dsimp only; omega)
  · intro j hj
    rw [happ]
    simp only [List.length_append, List.length_cons, List.length_nil] at hj
    by_cases hjn : j < vs.length
    · have hpres : ∀ r, r < 4 → setDictionary
          (writeI32 (writeStringMarker sg.mem (B - (S + BIG_STRING_MARKER_SIZE))
              (writeStringMemory B st v).2.1
              (((writeStringMemory B st v).2.2 : Nat) : Int))
            (DICTIONARY_HEADER_SIZE + 4 * sg.count)
            (-((S + BIG_STRING_MARKER_SIZE : Nat) : Int)))
          ⟨S + BIG_STRING_MARKER_SIZE, B⟩ (DICTIONARY_HEADER_SIZE + 4 * j + r) =
          sg.mem (DICTIONARY_HEADER_SIZE + 4 * j + r) := by
        intro r hr
        refine hout _ (by omega) ?_ ?_
        · omega
        · left
          omega
      rw [readI32_congr hpres, inv.entries j hjn, entryVal_append t vs v j hjn]
    · have hjeq : j = vs.length := by omega
      subst hjeq
      have h1 : ∀ r, r < 4 → setDictionary
          (writeI32 (writeStringMarker sg.mem (B - (S + BIG_STRING_MARKER_SIZE))
              (writeStringMemory B st v).2.1
              (((writeStringMemory B st v).2.2 : Nat) : Int))
            (DICTIONARY_HEADER_SIZE + 4 * sg.count)
            (-((S + BIG_STRING_MARKER_SIZE : Nat) : Int)))
          ⟨S + BIG_STRING_MARKER_SIZE, B⟩ (DICTIONARY_HEADER_SIZE + 4 * vs.length + r) =
          writeI32 (writeStringMarker sg.mem (B - (S + BIG_STRING_MARKER_SIZE))
              (writeStringMemory B st v).2.1
              (((writeStringMemory B st v).2.2 : Nat) : Int))
            (DICTIONARY_HEADER_SIZE + 4 * sg.count)
            (-((S + BIG_STRING_MARKER_SIZE : Nat) : Int))
            (DICTIONARY_HEADER_SIZE + 4 * vs.length + r) := by
        intro r hr
        exact setDictionary_out _ _ (by omega)
      rw [readI32_congr h1, hn, readI32_writeI32 _ _ _ (by constructor <;> omega)]
      unfold entryVal
      rw [getD_append_last, if_pos hov, take_append_last, hS']
  · intro j hj hlen
    rw [happ]
    simp only [List.length_append, List.length_cons, List.length_nil] at hj
    by_cases hjn : j < vs.length
    · rw [List.getD_append _ _ _ _ hjn] at hlen ⊢
      rw [cumSize_take_append t vs v (j + 1) (by omega)]
      have hcum := cumSize_take_succ t j vs hjn
      have hcum1 : cumSize t (vs.take (j + 1)) ≤ S := cumSize_take_le t (j + 1) vs
      have hincj : incOf t (vs.getD j []) = (vs.getD j []).length := by
        unfold incOf
        rw [if_neg (by omega)]
      have hpres : ∀ r, r < (vs.getD j []).length → setDictionary
          (writeI32 (writeStringMarker sg.mem (B - (S + BIG_STRING_MARKER_SIZE))
              (writeStringMemory B st v).2.1
              (((writeStringMemory B st v).2.2 : Nat) : Int))
            (DICTIONARY_HEADER_SIZE + 4 * sg.count)
            (-((S + BIG_STRING_MARKER_SIZE : Nat) : Int)))
          ⟨S + BIG_STRING_MARKER_SIZE, B⟩ (B - cumSize t (vs.take (j + 1)) + r) =
          sg.mem (B - cumSize t (vs.take (j + 1)) + r) := by
        intro r hr
        refine hout _ (by omega) ?_ ?_
        · right
          omega
        · right
          omega
      rw [readBytes_congr _ hpres]
      exact inv.inline_ok j hjn hlen
    · have hjeq : j = vs.length := by omega
      subst hjeq
      rw [getD_append_last] at hlen
      omega
  · intro j hj hlen
    rw [happ]
    simp only [List.length_append, List.length_cons, List.length_nil] at hj
    by_cases hjn : j < vs.length
    · rw [List.getD_append _ _ _ _ hjn] at hlen ⊢
      rw [cumSize_take_append t vs v (j + 1) (by omega)]
      obtain ⟨b, o, hi64, hi32, hbmax0, hblt0, ho310, hstored0⟩ := inv.over_ok j hjn hlen
      have hcum := cumSize_take_succ t j vs hjn
      have hcum1 : cumSize t (vs.take (j + 1)) ≤ S := cumSize_take_le t (j + 1) vs
      have hincj : incOf t (vs.getD j []) = BIG_STRING_MARKER_SIZE := by
        unfold incOf
        rw [if_pos hlen]
      have hpres : ∀ r, r < 12 → setDictionary
          (writeI32 (writeStringMarker sg.mem (B - (S + BIG_STRING_MARKER_SIZE))
              (writeStringMemory B st v).2.1
              (((writeStringMemory B st v).2.2 : Nat) : Int))
            (DICTIONARY_HEADER_SIZE + 4 * sg.count)
            (-((S + BIG_STRING_MARKER_SIZE : Nat) : Int)))
          ⟨S + BIG_STRING_MARKER_SIZE, B⟩ (B - cumSize t (vs.take (j + 1)) + r) =
          sg.mem (B - cumSize t (vs.take (j + 1)) + r) := by
        intro r hr
        refine hout _ (by omega) ?_ ?_
        · right
          omega
        · right
          omega
      refine ⟨b, o, ?_, ?_, hbmax0, by (try dsimp only); omega, ho310, ?_⟩
      · rw [readI64_congr (fun r hr => hpres r (by omega))]
        exact hi64
      · have h2 : ∀ r, r < 4 → setDictionary
            (writeI32 (writeStringMarker sg.mem (B - (S + BIG_STRING_MARKER_SIZE))
                (writeStringMemory B st v).2.1
                (((writeStringMemory B st v).2.2 : Nat) : Int))
              (DICTIONARY_HEADER_SIZE + 4 * sg.count)
              (-((S + BIG_STRING_MARKER_SIZE : Nat) : Int)))
            ⟨S + BIG_STRING_MARKER_SIZE, B⟩
            (B - cumSize t (vs.take (j + 1)) + 8 + r) =
            sg.mem (B - cumSize t (vs.take (j + 1)) + 8 + r) := by
          intro r hr
          refine hout _ (by omega) ?_ ?_
          · right
            omega
          · right
            omega
        rw [readI32_congr h2]
        exact hi32
      · exact writeStringMemory_preserves B st v b o _ (by omega) hstored0
    · have hjeq : j = vs.length := by omega
      subst hjeq
      rw [getD_append_last, take_append_last, hS']
      refine ⟨(writeStringMemory B st v).2.1, (writeStringMemory B st v).2.2,
        ?_, ?_, hbmax, hblt', ho31, hstored⟩
      · have h1 : ∀ r, r < 8 → setDictionary
            (writeI32 (writeStringMarker sg.mem (B - (S + BIG_STRING_MARKER_SIZE))
                (writeStringMemory B st v).2.1
                (((writeStringMemory B st v).2.2 : Nat) : Int))
              (DICTIONARY_HEADER_SIZE + 4 * sg.count)
              (-((S + BIG_STRING_MARKER_SIZE : Nat) : Int)))
            ⟨S + BIG_STRING_MARKER_SIZE, B⟩
            (B - (S + BIG_STRING_MARKER_SIZE) + r) =
            writeI64 sg.mem (B - (S + BIG_STRING_MARKER_SIZE))
              (writeStringMemory B st v).2.1
              (B - (S + BIG_STRING_MARKER_SIZE) + r) := by
          intro r hr
          rw [setDictionary_out _ _ (by omega), writeI32_out (by omega)]
          unfold writeStringMarker
          rw [writeI32_out (by omega)]
        rw [readI64_congr h1]
        refine readI64_writeI64 sg.mem _ _ ⟨by omega, by omega⟩
      · have h1 : ∀ r, r < 4 → setDictionary
            (writeI32 (writeStringMarker sg.mem (B - (S + BIG_STRING_MARKER_SIZE))
                (writeStringMemory B st v).2.1
                (((writeStringMemory B st v).2.2 : Nat) : Int))
              (DICTIONARY_HEADER_SIZE + 4 * sg.count)
              (-((S + BIG_STRING_MARKER_SIZE : Nat) : Int)))
            ⟨S + BIG_STRING_MARKER_SIZE, B⟩
            (B - (S + BIG_STRING_MARKER_SIZE) + 8 + r) =
            writeStringMarker sg.mem (B - (S + BIG_STRING_MARKER_SIZE))
              (writeStringMemory B st v).2.1
              (((writeStringMemory B st v).2.2 : Nat) : Int)
              (B - (S + BIG_STRING_MARKER_SIZE) + 8 + r) := by
          intro r hr
          rw [setDictionary_out _ _ (by omega), writeI32_out (by omega)]
        rw [readI32_congr h1]
        unfold writeStringMarker
        exact readI32_writeI32 _ _ _ ⟨by omega, by omega⟩
  · rw [happ]
    exact hnodes'
  · rw [happ]
    have h1 := inv.next_bound
    simp only [List.length_append, List.length_cons, List.length_nil]
    push_cast at h1 ⊢
    omega

/-- A string stored in the in-memory overflow chain is returned unchanged by
`ReadOverflowString`. -/
theorem readOverflowString_mem_stored (disk : Int → Mem) (blockSize : Nat)
    (st : UncompressedStringSegmentState) (r : ResultVec) (b : Int) (o : Nat)
    (w : List Nat) (hb : MAXIMUM_BLOCK ≤ b) (hst : storedInState st b o w) :
    (readOverflowString disk blockSize st r b o).1 = w := by
  obtain ⟨node, hfind, hext, hu, hbytes⟩ := hst
  unfold readOverflowString
  rw [if_neg (by omega)]
  simp only [hfind]
  unfold readStringWithLength
  rw [hu]
  exact hbytes

/-- From the segment invariant, the scan row value of row `i` computed with
any previous offset of magnitude `cumSize (take i)` is exactly the `i`-th
appended value. -/
theorem scanRowValue_of_inv (disk : Int → Mem) (B D t : Nat)
    (vs : List (List Nat)) (sg : Segment) (st : UncompressedStringSegmentState)
    (inv : SegInv B D t vs sg st) (hcum : cumSize t vs < 2 ^ 31)
    (i : Nat) (hi : i < vs.length) (p : Int)
    (hp : p.natAbs = cumSize t (vs.take i)) :
    scanRowValue disk B st sg.mem D p i = vs.getD i [] := by
  have hBM : BIG_STRING_MARKER_SIZE = 12 := rfl
  have hsucc := cumSize_take_succ t i vs hi
  have hS1 : cumSize t (vs.take (i + 1)) ≤ cumSize t vs := cumSize_take_le t (i + 1) vs
  have habs : (entryVal t vs i).natAbs = cumSize t (vs.take (i + 1)) := by
    unfold entryVal
    split <;> simp
  unfold scanRowValue
  rw [inv.entries i hi]
  have hlen : ((((entryVal t vs i).natAbs : Int) - (p.natAbs : Int)).emod (2 ^ 32)).toNat
      = incOf t (vs.getD i []) := by
    rw [habs, hp, hsucc]
    have heq : ((cumSize t (vs.take i) + incOf t (vs.getD i []) : Nat) : Int) -
        ((cumSize t (vs.take i) : Nat) : Int) = ((incOf t (vs.getD i []) : Nat) : Int) := by
      push_cast
      ring
    rw [heq]
    have hmod : ((incOf t (vs.getD i []) : Nat) : Int).emod (2 ^ 32) =
        ((incOf t (vs.getD i []) : Nat) : Int) := by
      apply Int.emod_eq_of_lt
      · exact_mod_cast Nat.zero_le _
      · omega
    rw [hmod]
    omega
  rw [hlen]
  unfold fetchStringFromDict
  by_cases hov : t ≤ (vs.getD i []).length
  · have hpos : 0 < cumSize t (vs.take (i + 1)) := by
      rw [hsucc]
      unfold incOf
      rw [if_pos hov]
      omega
    have hneg : entryVal t vs i < 0 := by
      unfold entryVal
      rw [if_pos hov]
      omega
    rw [if_pos hneg]
    obtain ⟨b, o, h64, h32, hbm, hblt, ho31, hst⟩ := inv.over_ok i hi hov
    unfold readStringMarker
    rw [habs, h64, h32]
    dsimp only
    have htn : ((o : Int)).toNat = o := by simp
    rw [htn]
    exact readOverflowString_mem_stored disk B st _ b o _ hbm hst
  · have hnneg : ¬ entryVal t vs i < 0 := by
      unfold entryVal
      rw [if_neg hov]
      omega
    rw [if_neg hnneg]
    have htoNat : (entryVal t vs i).toNat = cumSize t (vs.take (i + 1)) := by
      unfold entryVal
      rw [if_neg hov]
      simp
    rw [htoNat]
    have hinc : incOf t (vs.getD i []) = (vs.getD i []).length := by
      unfold incOf
      rw [if_neg hov]
    rw [hinc]
    exact inv.inline_ok i hi (by omega)

/-- From the segment invariant, a full scan reproduces the appended values. -/
theorem scan_of_inv (disk : Int → Mem) (B D t : Nat) (vs : List (List Nat))
    (sg : Segment) (st : UncompressedStringSegmentState) (r : ResultVec)
    (inv : SegInv B D t vs sg st) (hcum : cumSize t vs < 2 ^ 31) :
    (stringScanPartial disk B st sg.mem 0 vs.length r).1 = vs := by
  have hend : getDictionaryEnd sg.mem = D := inv.hdr_end
  unfold stringScanPartial
  rw [if_neg (by omega), hend]
  rw [scanLoop_fst disk B st sg.mem D vs.length 0 0 r]
  refine List.ext_getElem (by simp) ?_
  intro i h1 h2
  simp only [List.getElem_map, List.getElem_range]
  have hi : i < vs.length := by simpa using h2
  have hrow : ∀ (p : Int), p.natAbs = cumSize t (vs.take i) →
      scanRowValue disk B st sg.mem D p i = vs.getD i [] :=
    fun p hp => scanRowValue_of_inv disk B D t vs sg st inv hcum i hi p hp
  have hzero : (0 : Nat) + i = i := by omega
  by_cases h0 : i = 0
  · subst h0
    rw [if_pos rfl]
    have := hrow 0 (by simp [cumSize])
    simp only [hzero] at this ⊢
    rw [this]
    exact List.getD_eq_getElem vs [] hi
  · rw [if_neg h0]
    rw [hzero]
    have hi1 : i - 1 < vs.length := by omega
    have hentry := inv.entries (i - 1) hi1
    have habs1 : (entryVal t vs (i - 1)).natAbs = cumSize t (vs.take i) := by
      unfold entryVal
      have : i - 1 + 1 = i := by omega
      rw [this]
      split <;> simp
    rw [hentry]
    have := hrow (entryVal t vs (i - 1)) habs1
    rw [this]
    exact List.getD_eq_getElem vs [] hi

/-- The invariant holds for a freshly initialised segment. -/
theorem stringInitSegment_inv (B t : Nat) (hB32 : B < 2 ^ 32) :
    SegInv B B t [] (stringInitSegment B none).1 (stringInitSegment B none).2 := by
  refine ⟨rfl, rfl, ?_, ?_, ?_, ?_, ?_, ?_, ?_⟩
  · exact readU32_setDictionary_size memZero ⟨0, B⟩ (by norm_num)
  · exact readU32_setDictionary_end memZero ⟨0, B⟩ hB32
  · intro j hj
    simp at hj
  · intro j hj
    simp at hj
  · intro j hj
    simp at hj
  · exact ⟨fun node hmem => by simp [stringInitSegment] at hmem, le_refl _⟩
  · simp [stringInitSegment]

/-- The invariant holds after appending any batch that fits. -/
theorem appendAll_inv (B t : Nat) (vs : List (List Nat)) (hB31 : B < 2 ^ 31)
    (hfit : DICTIONARY_HEADER_SIZE + 4 * vs.length + cumSize t vs ≤ B)
    (hlens : ∀ v ∈ vs, v.length + 4 < 2 ^ 31) :
    SegInv B B t vs (appendAll B t (stringInitSegment B none) vs).1
      (appendAll B t (stringInitSegment B none) vs).2 := by
  induction vs using List.reverseRecOn with
  | nil =>
    exact stringInitSegment_inv B t (by omega)
  | append_singleton vs v ih =>
    have hfold : appendAll B t (stringInitSegment B none) (vs ++ [v]) =
        appendValue B t (appendAll B t (stringInitSegment B none) vs) v := by
      unfold appendAll
      rw [List.foldl_append]
      rfl
    have hcumle : cumSize t vs ≤ cumSize t (vs ++ [v]) := by
      rw [cumSize_append]
      omega
    have hlenle : vs.length ≤ (vs ++ [v]).length := by simp
    have hfit' : DICTIONARY_HEADER_SIZE + 4 * vs.length + cumSize t vs ≤ B := by
      simp only [List.length_append, List.length_cons, List.length_nil] at hfit
      omega
    have ihinv := ih hfit' (fun w hw => hlens w (by simp [hw]))
    have hlfit : DICTIONARY_HEADER_SIZE + 4 * (vs.length + 1) + cumSize t (vs ++ [v]) ≤ B := by
      simp only [List.length_append, List.length_cons, List.length_nil] at hfit
      omega
    rw [hfold]
    set p := appendAll B t (stringInitSegment B none) vs with hp
    have hpair : p = (p.1, p.2) := rfl
    rw [hpair]
    by_cases hov : t ≤ v.length
    · exact appendValue_inv_over B t vs v p.1 p.2 ihinv hB31 hlfit hov
        (hlens v (by simp))
    · exact appendValue_inv_inline B t vs v p.1 p.2 ihinv hB31 hlfit hov

/-! ### C1: append/scan round-trip -/

/-- C1: appending any sequence of values none of which exceeds the remaining
capacity (for each value, its dictionary increment — the value's length
inline, the marker size at or above the overflow threshold — plus its 4-byte
offset entry fits, i.e. `HeaderSize + 4*n + cumSize vs ≤ B`), then scanning
rows `[0, n)` with `StringScanPartial` at result offset 0, returns exactly
`v_0..v_{n-1}` in order: lengths are recovered as
`abs(offset[i]) - abs(offset[i-1])` with previous 0 for the first row, and
non-negative entries are read inline from the dictionary region. -/
theorem append_scan_roundtrip (disk : Int → Mem) (B t : Nat)
    (vs : List (List Nat)) (r : ResultVec) (hB31 : B < 2 ^ 31)
    (hfit : DICTIONARY_HEADER_SIZE + 4 * vs.length + cumSize t vs ≤ B)
    (hlens : ∀ v ∈ vs, v.length + 4 < 2 ^ 31) :
    (stringScanPartial disk B (appendAll B t (stringInitSegment B none) vs).2
      (appendAll B t (stringInitSegment B none) vs).1.mem 0 vs.length r).1 = vs := by
  have inv := appendAll_inv B t vs hB31 hfit hlens
  have hcount : vs.length =
      (appendAll B t (stringInitSegment B none) vs).1.count := inv.count_eq.symm
  have hcum : cumSize t vs < 2 ^ 31 := by
    have hDH : DICTIONARY_HEADER_SIZE = 8 := rfl
    omega
  exact scan_of_inv disk B B t vs _ _ r inv hcum

/-- Witness for C1: three short strings and one overflow string appended to a
256-byte block with threshold 5, scanned back. -/
theorem append_scan_roundtrip_witness :
    (stringScanPartial diskSmall 256
      (appendAll 256 5 (stringInitSegment 256 none)
        [[97], [98, 98], [99, 99, 99], [1, 2, 3, 4, 5, 6, 7]]).2
      (appendAll 256 5 (stringInitSegment 256 none)
        [[97], [98, 98], [99, 99, 99], [1, 2, 3, 4, 5, 6, 7]]).1.mem 0 4
      ⟨[], [], []⟩).1 = [[97], [98, 98], [99, 99, 99], [1, 2, 3, 4, 5, 6, 7]] :=
  append_scan_roundtrip diskSmall 256 5
    [[97], [98, 98], [99, 99, 99], [1, 2, 3, 4, 5, 6, 7]] ⟨[], [], []⟩
    (by norm_num) (by norm_num [DICTIONARY_HEADER_SIZE, cumSize, incOf,
      BIG_STRING_MARKER_SIZE]) (by
      intro v hv
      fin_cases hv <;> norm_num)

/-- From the segment invariant, the single-row fetch of row `j` returns the
`j`-th appended value. -/
theorem fetchRow_of_inv (disk : Int → Mem) (B D t : Nat) (vs : List (List Nat))
    (sg : Segment) (st : UncompressedStringSegmentState) (r : ResultVec)
    (inv : SegInv B D t vs sg st) (hcum : cumSize t vs < 2 ^ 31)
    (j : Nat) (hj : j < vs.length) :
    (stringFetchRow disk B st sg.mem j r).1 = vs.getD j [] := by
  have hend : getDictionaryEnd sg.mem = D := inv.hdr_end
  rw [stringFetchRow_eq_scanRowValue disk B st sg.mem j r, hend]
  by_cases h0 : j = 0
  · subst h0
    rw [if_pos rfl]
    exact scanRowValue_of_inv disk B D t vs sg st inv hcum 0 hj 0 (by simp [cumSize])
  · rw [if_neg h0]
    rw [inv.entries (j - 1) (by omega)]
    refine scanRowValue_of_inv disk B D t vs sg st inv hcum j hj _ ?_
    unfold entryVal
    have hjj : j - 1 + 1 = j := by omega
    rw [hjj]
    split <;> simp

/-! ### C2: overflow values get negative entries and round-trip -/

/-- C2: in a segment built by appends, every value at or above the overflow
threshold has a negative offset-array entry and resolving its marker through
the Overflow Store returns the value unchanged; and on the durable path, for
any chain layout holding `w` (with its 32-bit length prefix at `off`, payload
chained across blocks through trailing next-block pointers, the local offset
resetting to 0 at each hop), `ReadOverflowString` concatenates the pieces and
returns exactly `w` — including when `w` spans several physical blocks. -/
theorem overflow_roundtrip (disk : Int → Mem) (B t : Nat) (vs : List (List Nat))
    (r : ResultVec) (hB31 : B < 2 ^ 31)
    (hfit : DICTIONARY_HEADER_SIZE + 4 * vs.length + cumSize t vs ≤ B)
    (hlens : ∀ v ∈ vs, v.length + 4 < 2 ^ 31) :
    (∀ j, j < vs.length → t ≤ (vs.getD j []).length →
      readI32 (appendAll B t (stringInitSegment B none) vs).1.mem
        (DICTIONARY_HEADER_SIZE + 4 * j) < 0 ∧
      (stringFetchRow disk B (appendAll B t (stringInitSegment B none) vs).2
        (appendAll B t (stringInitSegment B none) vs).1.mem j r).1 = vs.getD j []) ∧
    (∀ (disk2 : Int → Mem) (st2 : UncompressedStringSegmentState) (r2 : ResultVec)
      (b : Int) (off : Nat) (w : List Nat), b < MAXIMUM_BLOCK →
      readU32 (disk2 b) off = w.length →
      chainedFrom disk2 B (w.length + 1) b (off + 4) w = true →
      (readOverflowString disk2 B st2 r2 b off).1 = w) := by
  constructor
  · intro j hj hov
    have inv := appendAll_inv B t vs hB31 hfit hlens
    have hDH : DICTIONARY_HEADER_SIZE = 8 := rfl
    have hBM : BIG_STRING_MARKER_SIZE = 12 := rfl
    have hcum : cumSize t vs < 2 ^ 31 := by omega
    constructor
    · rw [inv.entries j hj]
      unfold entryVal
      rw [if_pos hov]
      have hsucc := cumSize_take_succ t j vs hj
      have hones : incOf t (vs.getD j []) = BIG_STRING_MARKER_SIZE := by
        unfold incOf
        rw [if_pos hov]
      have hpos : 0 < cumSize t (vs.take (j + 1)) := by omega
      omega
    · exact fetchRow_of_inv disk B B t vs _ _ r inv hcum j hj
  · intro disk2 st2 r2 b off w hdur hlen2 hchain
    have hval : overflowCopyLoop disk2 B (w.length + 1) (disk2 b) (off + 4)
        w.length [] = w :=
      overflowCopyLoop_chained disk2 B (w.length + 1) b (off + 4) w [] hchain
    simp only [readOverflowString, if_pos hdur, hlen2, hval]
    split <;> rfl

/-- Witness for C2: an appended 7-byte overflow value (threshold 5, 64-byte
block) gets a negative entry and fetches back; a 16-byte string chained over
three 16-byte durable blocks reads back whole. -/
theorem overflow_roundtrip_witness :
    (readI32 (appendAll 64 5 (stringInitSegment 64 none)
        [[1, 2, 3, 4, 5, 6, 7]]).1.mem (DICTIONARY_HEADER_SIZE + 4 * 0) < 0 ∧
      (stringFetchRow diskSmall 64 (appendAll 64 5 (stringInitSegment 64 none)
          [[1, 2, 3, 4, 5, 6, 7]]).2
        (appendAll 64 5 (stringInitSegment 64 none) [[1, 2, 3, 4, 5, 6, 7]]).1.mem 0
        ⟨[], [], []⟩).1 = [1, 2, 3, 4, 5, 6, 7]) ∧
    (readOverflowString diskBig 16 ⟨[], [], MAXIMUM_BLOCK⟩ ⟨[], [], []⟩ 0 0).1 =
      [1, 2, 3, 4, 5, 6, 7, 8, 9, 10, 11, 12, 13, 14, 15, 16] := by
  constructor
  · exact (overflow_roundtrip diskSmall 64 5 [[1, 2, 3, 4, 5, 6, 7]] ⟨[], [], []⟩
      (by norm_num)
      (by norm_num [DICTIONARY_HEADER_SIZE, cumSize, incOf, BIG_STRING_MARKER_SIZE])
      (by intro v hv; fin_cases hv <;> norm_num)).1 0 (by norm_num) (by norm_num)
  · exact (overflow_roundtrip diskSmall 16 5 [] ⟨[], [], []⟩ (by norm_num)
      (by norm_num [DICTIONARY_HEADER_SIZE, cumSize])
      (by intro v hv; simp at hv)).2 diskBig ⟨[], [], MAXIMUM_BLOCK⟩ ⟨[], [], []⟩ 0 0
      [1, 2, 3, 4, 5, 6, 7, 8, 9, 10, 11, 12, 13, 14, 15, 16]
      (by decide) (by decide) (by decide)

/-- Compaction: when the total required size is below the flush limit,
`FinalizeAppend` slides the dictionary down to just after the offset array;
the invariant holds again with dictionary end
`HeaderSize + count*4 + dictionary.size`, and the new size is returned. -/
theorem finalizeAppend_inv (B t flushLimit : Nat) (vs : List (List Nat))
    (sg : Segment) (st : UncompressedStringSegmentState)
    (inv : SegInv B B t vs sg st) (hB31 : B < 2 ^ 31)
    (hfit : DICTIONARY_HEADER_SIZE + 4 * vs.length + cumSize t vs ≤ B)
    (hcomp : DICTIONARY_HEADER_SIZE + vs.length * 4 + cumSize t vs < flushLimit) :
    SegInv B (DICTIONARY_HEADER_SIZE + vs.length * 4 + cumSize t vs) t vs
      (finalizeAppend flushLimit sg).1 st ∧
    (finalizeAppend flushLimit sg).2 =
      DICTIONARY_HEADER_SIZE + vs.length * 4 + cumSize t vs := by
  have hDH : DICTIONARY_HEADER_SIZE = 8 := rfl
  have hBM : BIG_STRING_MARKER_SIZE = 12 := rfl
  have hn := inv.count_eq
  have hdict : getDictionary sg.mem = ⟨cumSize t vs, B⟩ := by
    unfold getDictionary
    rw [inv.hdr_size, inv.hdr_end]
  set S := cumSize t vs with hSdef
  set n := vs.length with hndef
  have hcond : ¬ flushLimit ≤ DICTIONARY_HEADER_SIZE + sg.count * 4 + S := by
    rw [hn]
    omega
  have hfin : finalizeAppend flushLimit sg =
      (⟨setDictionary
          (memmove sg.mem (DICTIONARY_HEADER_SIZE + sg.count * 4) (B - S) S)
          ⟨S, B - (sg.segSize - (DICTIONARY_HEADER_SIZE + sg.count * 4 + S))⟩,
        sg.count, sg.segSize⟩,
        DICTIONARY_HEADER_SIZE + sg.count * 4 + S) := by
    simp only [finalizeAppend, hdict, if_neg hcond]
  have hseg := inv.seg_size
  have hend : B - (sg.segSize - (DICTIONARY_HEADER_SIZE + sg.count * 4 + S)) =
      DICTIONARY_HEADER_SIZE + n * 4 + S := by
    rw [hseg, hn]
    omega
  -- relocation: byte `r` of the span of magnitude `k` (measured back from the
  -- dictionary end) is moved from `B - k + r` to `totalSize - k + r`
  have hrel : ∀ k r, r < k → k ≤ S →
      setDictionary (memmove sg.mem (DICTIONARY_HEADER_SIZE + sg.count * 4) (B - S) S)
        ⟨S, B - (sg.segSize - (DICTIONARY_HEADER_SIZE + sg.count * 4 + S))⟩
        (DICTIONARY_HEADER_SIZE + n * 4 + S - k + r) =
      sg.mem (B - k + r) := by
    intro k r hr hk
    rw [setDictionary_out _ _ (by omega)]
    rw [memmove_in (by rw [hn]; omega)]
    have harg : B - S + (DICTIONARY_HEADER_SIZE + n * 4 + S - k + r -
        (DICTIONARY_HEADER_SIZE + sg.count * 4)) = B - k + r := by
      rw [hn]
      omega
    rw [harg]
  have hoffsets : ∀ q, 8 ≤ q → q + 4 ≤ DICTIONARY_HEADER_SIZE + sg.count * 4 →
      ∀ r, r < 4 →
      setDictionary (memmove sg.mem (DICTIONARY_HEADER_SIZE + sg.count * 4) (B - S) S)
        ⟨S, B - (sg.segSize - (DICTIONARY_HEADER_SIZE + sg.count * 4 + S))⟩ (q + r) =
      sg.mem (q + r) := by
    intro q h8 hq r hr
    rw [setDictionary_out _ _ (by omega)]
    rw [memmove_out (by left; omega)]
  refine ⟨⟨?_, ?_, ?_, ?_, ?_, ?_, ?_, ?_, ?_⟩, ?_⟩
  · rw [hfin]
    exact hn
  · rw [hfin]
    exact hseg
  · rw [hfin]
    exact readU32_setDictionary_size _ _ (by dsimp only; omega)
  · rw [hfin]
    rw [readU32_setDictionary_end _ _ (by dsimp only; omega)]
    exact hend
  · intro j hj
    rw [hfin]
    have hpre : ∀ r, r < 4 →
        setDictionary (memmove sg.mem (DICTIONARY_HEADER_SIZE + sg.count * 4) (B - S) S)
          ⟨S, B - (sg.segSize - (DICTIONARY_HEADER_SIZE + sg.count * 4 + S))⟩
          (DICTIONARY_HEADER_SIZE + 4 * j + r) =
        sg.mem (DICTIONARY_HEADER_SIZE + 4 * j + r) := by
      refine hoffsets (DICTIONARY_HEADER_SIZE + 4 * j) (by omega) (by rw [hn]; omega)
    rw [readI32_congr hpre]
    exact inv.entries j hj
  · intro j hj hlen
    rw [hfin]
    have hS1 : cumSize t (vs.take (j + 1)) ≤ S := cumSize_take_le t (j + 1) vs
    have hsucc := cumSize_take_succ t j vs hj
    have hincj : incOf t (vs.getD j []) = (vs.getD j []).length := by
      unfold incOf
      rw [if_neg (by omega)]
    have hpre : ∀ r, r < (vs.getD j []).length →
        setDictionary (memmove sg.mem (DICTIONARY_HEADER_SIZE + sg.count * 4) (B - S) S)
          ⟨S, B - (sg.segSize - (DICTIONARY_HEADER_SIZE + sg.count * 4 + S))⟩
          (DICTIONARY_HEADER_SIZE + n * 4 + S - cumSize t (vs.take (j + 1)) + r) =
        sg.mem (B - cumSize t (vs.take (j + 1)) + r) := by
      intro r hr
      exact hrel (cumSize t (vs.take (j + 1))) r (by omega) hS1
    rw [readBytes_congr _ hpre]
    exact inv.inline_ok j hj hlen
  · intro j hj hlen
    rw [hfin]
    have hS1 : cumSize t (vs.take (j + 1)) ≤ S := cumSize_take_le t (j + 1) vs
    have hsucc := cumSize_take_succ t j vs hj
    have hincj : incOf t (vs.getD j []) = BIG_STRING_MARKER_SIZE := by
      unfold incOf
      rw [if_pos hlen]
    obtain ⟨b, o, h64, h32, hbm, hblt, ho31, hst⟩ := inv.over_ok j hj hlen
    refine ⟨b, o, ?_, ?_, hbm, hblt, ho31, hst⟩
    · rw [readI64_congr (fun r hr =>
        hrel (cumSize t (vs.take (j + 1))) r (by omega) hS1)]
      exact h64
    · have h2 : ∀ r, r < 4 →
          setDictionary (memmove sg.mem (DICTIONARY_HEADER_SIZE + sg.count * 4) (B - S) S)
            ⟨S, B - (sg.segSize - (DICTIONARY_HEADER_SIZE + sg.count * 4 + S))⟩
            (DICTIONARY_HEADER_SIZE + n * 4 + S - cumSize t (vs.take (j + 1)) + 8 + r) =
          sg.mem (B - cumSize t (vs.take (j + 1)) + 8 + r) := by
        intro r hr
        have := hrel (cumSize t (vs.take (j + 1))) (8 + r) (by omega) hS1
        have e1 : DICTIONARY_HEADER_SIZE + n * 4 + S - cumSize t (vs.take (j + 1)) +
            (8 + r) = DICTIONARY_HEADER_SIZE + n * 4 + S -
            cumSize t (vs.take (j + 1)) + 8 + r := by
          omega
        have e2 : B - cumSize t (vs.take (j + 1)) + (8 + r) =
            B - cumSize t (vs.take (j + 1)) + 8 + r := by
          omega
        rw [e1, e2] at this
        exact this
      rw [readI32_congr h2]
      exact h32
  · exact inv.nodes
  · exact inv.next_bound
  · rw [hfin, hn]

/-! ### C8: compaction relocates the dictionary and preserves all values -/

/-- C8: after `FinalizeAppend` compacts a segment built by appends (the
required size is below the flush limit), the stored dictionary header
satisfies `GetDictionary(block).end = HeaderSize + count*4 + dictionary.size`
— the dictionary now immediately follows the offset array — and a subsequent
`Scan(0, n)` over the compacted block still reproduces all appended
values. -/
theorem finalizeAppend_compacts_scan (disk : Int → Mem) (B t flushLimit : Nat)
    (vs : List (List Nat)) (r : ResultVec) (hB31 : B < 2 ^ 31)
    (hfit : DICTIONARY_HEADER_SIZE + 4 * vs.length + cumSize t vs ≤ B)
    (hlens : ∀ v ∈ vs, v.length + 4 < 2 ^ 31)
    (hcomp : DICTIONARY_HEADER_SIZE + vs.length * 4 + cumSize t vs < flushLimit) :
    (getDictionary (finalizeAppend flushLimit
        (appendAll B t (stringInitSegment B none) vs).1).1.mem).end_ =
      DICTIONARY_HEADER_SIZE +
        (appendAll B t (stringInitSegment B none) vs).1.count * 4 +
        (getDictionary (finalizeAppend flushLimit
          (appendAll B t (stringInitSegment B none) vs).1).1.mem).size ∧
    (stringScanPartial disk B (appendAll B t (stringInitSegment B none) vs).2
      (finalizeAppend flushLimit
        (appendAll B t (stringInitSegment B none) vs).1).1.mem 0 vs.length r).1 = vs := by
  have inv := appendAll_inv B t vs hB31 hfit hlens
  have hDH : DICTIONARY_HEADER_SIZE = 8 := rfl
  have hcum : cumSize t vs < 2 ^ 31 := by omega
  obtain ⟨inv2, hret⟩ := finalizeAppend_inv B t flushLimit vs _ _ inv hB31 hfit hcomp
  constructor
  · have hsz := inv2.hdr_size
    have hed := inv2.hdr_end
    unfold getDictionary
    rw [hsz, hed, inv.count_eq]
  · exact scan_of_inv disk B _ t vs _ _ r inv2 hcum

/-- Witness for C8 at a concrete appended segment. -/
theorem finalizeAppend_compacts_scan_witness :
    (getDictionary (finalizeAppend 60
        (appendAll 64 5 (stringInitSegment 64 none) [[97], [98, 98]]).1).1.mem).end_ =
      DICTIONARY_HEADER_SIZE +
        (appendAll 64 5 (stringInitSegment 64 none) [[97], [98, 98]]).1.count * 4 +
        (getDictionary (finalizeAppend 60
          (appendAll 64 5 (stringInitSegment 64 none) [[97], [98, 98]]).1).1.mem).size ∧
    (stringScanPartial diskSmall 64
      (appendAll 64 5 (stringInitSegment 64 none) [[97], [98, 98]]).2
      (finalizeAppend 60
        (appendAll 64 5 (stringInitSegment 64 none) [[97], [98, 98]]).1).1.mem 0 2
      ⟨[], [], []⟩).1 = [[97], [98, 98]] :=
  finalizeAppend_compacts_scan diskSmall 64 5 60 [[97], [98, 98]] ⟨[], [], []⟩
    (by norm_num)
    (by norm_num [DICTIONARY_HEADER_SIZE, cumSize, incOf, BIG_STRING_MARKER_SIZE])
    (by intro v hv; fin_cases hv <;> norm_num)
    (by norm_num [DICTIONARY_HEADER_SIZE, cumSize, incOf, BIG_STRING_MARKER_SIZE])

end StringUncompressed
